import Mathlib

/-!
Verification of the sonar language front end (lexer + Pratt parser).

This file is a shallow embedding, in Lean 4, of the lexer in the
repository file embedded from `Lexer::tokenize` (the version with raw
strings, comments and the full keyword set) and of the parser in
`src/parser.cpp`.  C++ `std::size_t` indices become `Nat` (no overflow is
possible in the quantities involved: they are bounded by the source
length), `std::string` becomes `String`/`List Char` (sources in scope are
ASCII, so bytes and characters coincide), exceptions become `Except`, and
the in-place cursor/offset mutation becomes explicit state passing.
Loops become recursion: `while`-loops that push into an accumulator are
rendered as structural recursion producing the same list.
-/

namespace Sonar

/-- Half-open byte-offset range `[start, stop)`; the C++ field `end` is
renamed `stop` because `end` is a Lean keyword. -/
structure SourceSpan where
  start : Nat
  stop : Nat
deriving DecidableEq, Repr

/-- 1-based line/column pair. -/
structure SourceLocation where
  line : Nat
  column : Nat
deriving DecidableEq, Repr

/-- The closed token-type enumeration from `token.hpp`. -/
inductive TokenType where
  | Number | String | Identifier
  | Let | Fn | If | Else | For | While | True | False
  | Plus | Minus | Star | Slash | Ampersand | Pipe | AndAnd | OrOr
  | LeftParen | RightParen | Comma | Colon | LeftBrace | RightBrace
  | Semicolon | Arrow | Equals | In | End
deriving DecidableEq, Repr

/-- A token.  For string literals the C++ code stores the decoded value in
the `lexeme` field; for numbers it stores the matched slice verbatim (the
`double` conversion `Token::as_number` is performed lazily by the parser's
`parse_number`; we keep the lexeme in the AST instead of an IEEE value,
which no claim inspects). -/
structure Token where
  type : TokenType
  lexeme : String
  span : SourceSpan
deriving DecidableEq, Repr

/-- Characters that are awkward to write literally under the file's
lexical conventions. -/
def lbraceChar : Char := Char.ofNat 123

def rbraceChar : Char := Char.ofNat 125

def quoteChar : Char := Char.ofNat 34

/-- `std::isdigit` on ASCII input. -/
def is_digit (c : Char) : Bool := '0' ≤ c && c ≤ '9'

/-- `std::isalpha` on ASCII input. -/
def is_alpha (c : Char) : Bool :=
  ('a' ≤ c && c ≤ 'z') || ('A' ≤ c && c ≤ 'Z')

/-- `std::isalnum` on ASCII input. -/
def is_alnum (c : Char) : Bool := is_alpha c || is_digit c

/-- `std::isspace` on ASCII input (space, tab, newline, vertical tab,
form feed, carriage return). -/
def is_space (c : Char) : Bool :=
  c == ' ' || c == '\t' || c == '\n' || c == Char.ofNat 11 ||
    c == Char.ofNat 12 || c == '\r'

/-- The keyword table of `keyword_or_identifier`. -/
def keyword_or_identifier (lexeme : String) : TokenType :=
  if lexeme == "let" then .Let
  else if lexeme == "fn" then .Fn
  else if lexeme == "if" then .If
  else if lexeme == "else" then .Else
  else if lexeme == "for" then .For
  else if lexeme == "while" then .While
  else if lexeme == "in" then .In
  else if lexeme == "true" then .True
  else if lexeme == "false" then .False
  else .Identifier

/-- Offset → location resolution shared by the lexer lambda
`location_for` and `Parser::location_for`: `std::upper_bound` over an
ascending offset table.  The number of table entries `≤ offset` is the
distance to the upper bound; the line index backs up by one unless the
bound is the beginning. -/
def location_for (line_offsets : List Nat) (offset : Nat) : SourceLocation :=
  let k := (line_offsets.filter (fun o => decide (o ≤ offset))).length
  let line_index := if k = 0 then 0 else k - 1
  ⟨line_index + 1, offset - line_offsets.getD line_index 0 + 1⟩

/-- The lexer's `make_error` lambda: lexical errors are plain
`std::runtime_error` values whose message has the resolved location
formatted into the text. -/
def mkLexError (line_offsets : List Nat) (message : String) (offset : Nat) :
    String :=
  let location := location_for line_offsets offset
  message ++ " at line " ++ toString location.line ++ ", column " ++
    toString location.column

/-- `scan_ident`: the first character is consumed unconditionally, then a
run of alphanumeric/underscore characters. -/
def scan_ident (c : Char) (rest : List Char) (index : Nat) :
    Token × List Char × Nat :=
  let run := rest.takeWhile (fun ch => is_alnum ch || ch == '_')
  let lexeme := String.mk (c :: run)
  let stop := index + 1 + run.length
  (⟨keyword_or_identifier lexeme, lexeme, ⟨index, stop⟩⟩,
    rest.dropWhile (fun ch => is_alnum ch || ch == '_'), stop)

/-- The exponent part of `scan_number`: `consumed` are the characters
taken so far, `i` the absolute index one past them.  On `e`/`E` an
optional sign is taken and at least one digit is required; its absence is
the "Invalid exponent" error at the index where the digit was expected. -/
def scan_number_exponent (offs : List Nat) (consumed : List Char)
    (rest : List Char) (i : Nat) : Except String (List Char × List Char × Nat) :=
  match rest with
  | e :: r2 =>
    if e == 'e' || e == 'E' then
      let signTaken := match r2 with
        | s :: _ => s == '+' || s == '-'
        | [] => false
      let sgn := if signTaken then r2.take 1 else []
      let r3 := if signTaken then r2.drop 1 else r2
      let i3 := i + 1 + sgn.length
      match r3 with
      | d :: _ =>
        if is_digit d then
          let es := r3.takeWhile is_digit
          .ok (consumed ++ e :: (sgn ++ es), r3.dropWhile is_digit,
            i3 + es.length)
        else .error (mkLexError offs "Invalid exponent in number literal" i3)
      | [] => .error (mkLexError offs "Invalid exponent in number literal" i3)
    else .ok (consumed, rest, i)
  | [] => .ok (consumed, rest, i)

/-- `scan_number`: integer part or leading `.` (which demands a following
digit), optional fraction, optional exponent.  The token keeps the
matched slice verbatim. -/
def scan_number (chars : List Char) (index : Nat) (offs : List Nat) :
    Except String (Token × List Char × Nat) :=
  let start := index
  let afterInt : Except String (List Char × List Char × Nat × Bool) :=
    match chars with
    | '.' :: rest =>
      match rest with
      | d :: _ =>
        if is_digit d then .ok (['.'], rest, index + 1, true)
        else .error (mkLexError offs "Standalone '.' is not a valid number" start)
      | [] => .error (mkLexError offs "Standalone '.' is not a valid number" start)
    | _ =>
      let ds := chars.takeWhile is_digit
      let r1 := chars.dropWhile is_digit
      match r1 with
      | '.' :: r2 => .ok (ds ++ ['.'], r2, index + ds.length + 1, true)
      | _ => .ok (ds, r1, index + ds.length, false)
  match afterInt with
  | .error e => .error e
  | .ok (consumed, rest, i, seen_dot) =>
    let fs := if seen_dot then rest.takeWhile is_digit else []
    let rest2 := if seen_dot then rest.dropWhile is_digit else rest
    match scan_number_exponent offs (consumed ++ fs) rest2 (i + fs.length) with
    | .error e => .error e
    | .ok (all, rest3, i3) =>
      .ok (⟨.Number, String.mk all, ⟨start, i3⟩⟩, rest3, i3)

/-- The character-by-character loop of `scan_string_literal`; `i` is the
absolute index of the head of `cs`, `start` the index of the opening
quote. -/
def stringLoop (start : Nat) (offs : List Nat) (value : List Char)
    (cs : List Char) (i : Nat) : Except String (List Char × List Char × Nat) :=
  match cs with
  | [] => .error (mkLexError offs "Unterminated string literal" start)
  | c :: rest =>
    if c == quoteChar then .ok (value, rest, i + 1)
    else if c == '\\' then
      match rest with
      | [] => .error (mkLexError offs "Unterminated escape sequence in string literal" start)
      | esc :: rest2 =>
        if esc == 'n' then stringLoop start offs (value ++ ['\n']) rest2 (i + 2)
        else if esc == 't' then stringLoop start offs (value ++ ['\t']) rest2 (i + 2)
        else if esc == 'r' then stringLoop start offs (value ++ ['\r']) rest2 (i + 2)
        else if esc == '\\' then stringLoop start offs (value ++ ['\\']) rest2 (i + 2)
        else if esc == quoteChar then
          stringLoop start offs (value ++ [quoteChar]) rest2 (i + 2)
        else
          .error (mkLexError offs
            ("Unknown escape sequence '\\" ++ String.singleton esc ++ "'") i)
    else if c == '\n' then
      .error (mkLexError offs "Unterminated string literal" i)
    else stringLoop start offs (value ++ [c]) rest (i + 1)

/-- `scan_string_literal`: `chars` begins at the opening quote. -/
def scan_string_literal (chars : List Char) (index : Nat) (offs : List Nat) :
    Except String (Token × List Char × Nat) :=
  match chars with
  | _q :: body =>
    match stringLoop index offs [] body (index + 1) with
    | .error e => .error e
    | .ok (value, rest, i) => .ok (⟨.String, String.mk value, ⟨index, i⟩⟩, rest, i)
  | [] => .error (mkLexError offs "Unterminated string literal" index)

/-- The body loop of `scan_raw_string_literal`: a quote closes the string
only when immediately followed by `k` hashes (`matched_hashes == hash_count`);
an under-matched quote is pushed into the value; newlines are copied and
their one-past offsets recorded. -/
def rawLoop (k start : Nat) (offs : List Nat) (value : List Char)
    (cs : List Char) (i : Nat) :
    Except String (List Char × List Char × Nat × List Nat) :=
  match cs with
  | [] => .error (mkLexError offs "Unterminated raw string literal" start)
  | c :: rest =>
    if c == quoteChar then
      if rest.take k == List.replicate k '#' then
        .ok (value, rest.drop k, i + 1 + k, offs)
      else rawLoop k start offs (value ++ [quoteChar]) rest (i + 1)
    else if c == '\n' then
      rawLoop k start (offs ++ [i + 1]) (value ++ ['\n']) rest (i + 1)
    else rawLoop k start offs (value ++ [c]) rest (i + 1)

/-- `scan_raw_string_literal`: `chars` begins at the `r`; the delimiter
width is the run of `#` after it, and the opening quote is mandatory. -/
def scan_raw_string_literal (chars : List Char) (index : Nat)
    (offs : List Nat) : Except String (Token × List Char × Nat × List Nat) :=
  let start := index
  match chars with
  | _r :: rest =>
    let k := (rest.takeWhile (fun ch => ch == '#')).length
    let after := rest.dropWhile (fun ch => ch == '#')
    let i1 := index + 1 + k
    match after with
    | q :: body =>
      if q == quoteChar then
        match rawLoop k start offs [] body (i1 + 1) with
        | .error e => .error e
        | .ok (value, rest', i', offs') =>
          .ok (⟨.String, String.mk value, ⟨start, i'⟩⟩, rest', i', offs')
      else .error (mkLexError offs "Invalid raw string literal" i1)
    | [] => .error (mkLexError offs "Invalid raw string literal" i1)
  | [] => .error (mkLexError offs "Invalid raw string literal" index)

/-- The block-comment branch of the tokenize loop: consume until `*/`,
recording embedded newline offsets; end of input first is the
"Unterminated block comment" error at the index where scanning stopped. -/
def skip_block_comment (offs : List Nat) (cs : List Char) (i : Nat) :
    Except String (List Char × Nat × List Nat) :=
  match cs with
  | [] => .error (mkLexError offs "Unterminated block comment" i)
  | c :: rest =>
    if c == '\n' then skip_block_comment (offs ++ [i + 1]) rest (i + 1)
    else if c == '*' && rest.head? == some '/' then .ok (rest.tail, i + 2, offs)
    else skip_block_comment offs rest (i + 1)

/-- Output of `Lexer::tokenize`. -/
structure LexResult where
  tokens : List Token
  line_offsets : List Nat
deriving DecidableEq, Repr

/-- The main scanning loop of `Lexer::tokenize`.  Each iteration strictly
consumes input, so the fuel supplied by `tokenize` (length + 1) can never
run out; the fuel-exhaustion branch is shaped like every other lexical
error so that no theorem has to special-case it. -/
def lex (fuel : Nat) (cs : List Char) (i : Nat) (offs : List Nat) :
    Except String (List Token × List Nat) :=
  match fuel with
  | 0 => .error (mkLexError offs "lexer fuel exhausted" i)
  | fuel + 1 =>
    match cs with
    | [] => .ok ([], offs)
    | c :: rest =>
      if c == '\n' then lex fuel rest (i + 1) (offs ++ [i + 1])
      else if is_space c then lex fuel rest (i + 1) offs
      else if c == '+' then
        (lex fuel rest (i + 1) offs).map
          (fun r => (⟨.Plus, "+", ⟨i, i + 1⟩⟩ :: r.1, r.2))
      else if c == '-' then
        if rest.head? == some '>' then
          (lex fuel rest.tail (i + 2) offs).map
            (fun r => (⟨.Arrow, "->", ⟨i, i + 2⟩⟩ :: r.1, r.2))
        else
          (lex fuel rest (i + 1) offs).map
            (fun r => (⟨.Minus, "-", ⟨i, i + 1⟩⟩ :: r.1, r.2))
      else if c == '*' then
        (lex fuel rest (i + 1) offs).map
          (fun r => (⟨.Star, "*", ⟨i, i + 1⟩⟩ :: r.1, r.2))
      else if c == '/' then
        if rest.head? == some '/' then
          let body := rest.tail
          let seg := body.takeWhile (fun ch => !(ch == '\n'))
          lex fuel (body.dropWhile (fun ch => !(ch == '\n'))) (i + 2 + seg.length) offs
        else if rest.head? == some '*' then
          match skip_block_comment offs rest.tail (i + 2) with
          | .error e => .error e
          | .ok (rest', i', offs') => lex fuel rest' i' offs'
        else
          (lex fuel rest (i + 1) offs).map
            (fun r => (⟨.Slash, "/", ⟨i, i + 1⟩⟩ :: r.1, r.2))
      else if c == '&' then
        if rest.head? == some '&' then
          (lex fuel rest.tail (i + 2) offs).map
            (fun r => (⟨.AndAnd, "&&", ⟨i, i + 2⟩⟩ :: r.1, r.2))
        else
          (lex fuel rest (i + 1) offs).map
            (fun r => (⟨.Ampersand, "&", ⟨i, i + 1⟩⟩ :: r.1, r.2))
      else if c == '|' then
        if rest.head? == some '|' then
          (lex fuel rest.tail (i + 2) offs).map
            (fun r => (⟨.OrOr, "||", ⟨i, i + 2⟩⟩ :: r.1, r.2))
        else
          (lex fuel rest (i + 1) offs).map
            (fun r => (⟨.Pipe, "|", ⟨i, i + 1⟩⟩ :: r.1, r.2))
      else if c == '(' then
        (lex fuel rest (i + 1) offs).map
          (fun r => (⟨.LeftParen, "(", ⟨i, i + 1⟩⟩ :: r.1, r.2))
      else if c == ')' then
        (lex fuel rest (i + 1) offs).map
          (fun r => (⟨.RightParen, ")", ⟨i, i + 1⟩⟩ :: r.1, r.2))
      else if c == ',' then
        (lex fuel rest (i + 1) offs).map
          (fun r => (⟨.Comma, ",", ⟨i, i + 1⟩⟩ :: r.1, r.2))
      else if c == '=' then
        (lex fuel rest (i + 1) offs).map
          (fun r => (⟨.Equals, "=", ⟨i, i + 1⟩⟩ :: r.1, r.2))
      else if c == ':' then
        (lex fuel rest (i + 1) offs).map
          (fun r => (⟨.Colon, ":", ⟨i, i + 1⟩⟩ :: r.1, r.2))
      else if c == lbraceChar then
        (lex fuel rest (i + 1) offs).map
          (fun r => (⟨.LeftBrace, String.singleton lbraceChar, ⟨i, i + 1⟩⟩ :: r.1, r.2))
      else if c == rbraceChar then
        (lex fuel rest (i + 1) offs).map
          (fun r => (⟨.RightBrace, String.singleton rbraceChar, ⟨i, i + 1⟩⟩ :: r.1, r.2))
      else if c == ';' then
        (lex fuel rest (i + 1) offs).map
          (fun r => (⟨.Semicolon, ";", ⟨i, i + 1⟩⟩ :: r.1, r.2))
      else if is_digit c || c == '.' then
        match scan_number (c :: rest) i offs with
        | .error e => .error e
        | .ok (tok, rest', i') =>
          (lex fuel rest' i' offs).map (fun r => (tok :: r.1, r.2))
      else if c == quoteChar then
        match scan_string_literal (c :: rest) i offs with
        | .error e => .error e
        | .ok (tok, rest', i') =>
          (lex fuel rest' i' offs).map (fun r => (tok :: r.1, r.2))
      else if c == 'r' &&
          (rest.head? == some quoteChar || rest.head? == some '#') then
        match scan_raw_string_literal (c :: rest) i offs with
        | .error e => .error e
        | .ok (tok, rest', i', offs') =>
          (lex fuel rest' i' offs').map (fun r => (tok :: r.1, r.2))
      else if is_alpha c || c == '_' then
        let (tok, rest', i') := scan_ident c rest i
        (lex fuel rest' i' offs).map (fun r => (tok :: r.1, r.2))
      else
        .error (mkLexError offs
          ("Unexpected character '" ++ String.singleton c ++ "'") i)

/-- `Lexer::tokenize`: scan the whole source, then append the single
`End` sentinel with the zero-width one-past-end span. -/
def tokenize (source : String) : Except String LexResult :=
  match lex (source.data.length + 1) source.data 0 [0] with
  | .error e => .error e
  | .ok (toks, offs) =>
    .ok ⟨toks ++ [⟨.End, "", ⟨source.data.length, source.data.length⟩⟩], offs⟩

/-- A function-literal parameter (`Expression::Function::Parameter`). -/
structure Parameter where
  name : String
  span : SourceSpan
deriving DecidableEq, Repr

mutual
/-- The AST from `ast.hpp`.  Each variant carries the spans the C++
struct carries.  `Number` keeps the token's lexeme instead of the lazily
converted `double` (see `Token`); the C++ `Prefix`/`Infix`/`String`
variants are spelled `prefixOp`/`infixOp`/`str` because their names are
reserved in this development. -/
inductive Expression where
  | number (lexeme : String) (span : SourceSpan)
  | boolean (value : Bool) (span : SourceSpan)
  | str (value : String) (span : SourceSpan)
  | var (name : String) (name_span : SourceSpan) (span : SourceSpan)
  | prefixOp (op : TokenType) (op_span : SourceSpan) (right : Expression)
      (span : SourceSpan)
  | infixOp (op : TokenType) (op_span : SourceSpan) (left : Expression)
      (right : Expression) (span : SourceSpan)
  | grouping (expression : Expression) (span : SourceSpan)
  | unit (span : SourceSpan)
  | assign (name : String) (name_span : SourceSpan) (value : Expression)
      (span : SourceSpan)
  | block (statements : List Statement) (value : Option Expression)
      (span : SourceSpan)
  | ifE (condition : Expression) (thenB : Expression)
      (else_branch : Option Expression) (span : SourceSpan)
  | whileE (condition : Expression) (body : Expression) (span : SourceSpan)
  | forE (pattern : Expression) (iterable : Expression) (body : Expression)
      (span : SourceSpan)
  | function (parameters : List Parameter) (body : Expression)
      (span : SourceSpan)

/-- `Statement` from `ast.hpp`: a `let` binding or an expression
statement. -/
inductive Statement where
  | slet (name : String) (name_span : SourceSpan) (value : Expression)
      (span : SourceSpan)
  | sexpr (expression : Expression) (span : SourceSpan)
end

/-- The `span` member every `Expression` variant carries. -/
def Expression.span : Expression → SourceSpan
  | .number _ sp => sp
  | .boolean _ sp => sp
  | .str _ sp => sp
  | .var _ _ sp => sp
  | .prefixOp _ _ _ sp => sp
  | .infixOp _ _ _ _ sp => sp
  | .grouping _ sp => sp
  | .unit sp => sp
  | .assign _ _ _ sp => sp
  | .block _ _ sp => sp
  | .ifE _ _ _ sp => sp
  | .whileE _ _ sp => sp
  | .forE _ _ _ sp => sp
  | .function _ _ sp => sp

/-- The `span` member every `Statement` variant carries. -/
def Statement.span : Statement → SourceSpan
  | .slet _ _ _ sp => sp
  | .sexpr _ sp => sp

@[simp] theorem Expression.span_number (lx : String) (sp : SourceSpan) :
    (Expression.number lx sp).span = sp := rfl

@[simp] theorem Expression.span_boolean (b : Bool) (sp : SourceSpan) :
    (Expression.boolean b sp).span = sp := rfl

@[simp] theorem Expression.span_str (v : String) (sp : SourceSpan) :
    (Expression.str v sp).span = sp := rfl

@[simp] theorem Expression.span_var (nm : String) (ns sp : SourceSpan) :
    (Expression.var nm ns sp).span = sp := rfl

@[simp] theorem Expression.span_prefixOp (op : TokenType) (os : SourceSpan)
    (r : Expression) (sp : SourceSpan) :
    (Expression.prefixOp op os r sp).span = sp := rfl

@[simp] theorem Expression.span_infixOp (op : TokenType) (os : SourceSpan)
    (l r : Expression) (sp : SourceSpan) :
    (Expression.infixOp op os l r sp).span = sp := rfl

@[simp] theorem Expression.span_grouping (e : Expression) (sp : SourceSpan) :
    (Expression.grouping e sp).span = sp := rfl

@[simp] theorem Expression.span_unit (sp : SourceSpan) :
    (Expression.unit sp).span = sp := rfl

@[simp] theorem Expression.span_assign (nm : String) (ns : SourceSpan)
    (v : Expression) (sp : SourceSpan) :
    (Expression.assign nm ns v sp).span = sp := rfl

@[simp] theorem Expression.span_block (sts : List Statement)
    (v : Option Expression) (sp : SourceSpan) :
    (Expression.block sts v sp).span = sp := rfl

@[simp] theorem Expression.span_ifE (cond thenB : Expression)
    (eb : Option Expression) (sp : SourceSpan) :
    (Expression.ifE cond thenB eb sp).span = sp := rfl

@[simp] theorem Expression.span_whileE (cond body : Expression)
    (sp : SourceSpan) : (Expression.whileE cond body sp).span = sp := rfl

@[simp] theorem Expression.span_forE (pat it body : Expression)
    (sp : SourceSpan) : (Expression.forE pat it body sp).span = sp := rfl

@[simp] theorem Expression.span_function (ps : List Parameter)
    (body : Expression) (sp : SourceSpan) :
    (Expression.function ps body sp).span = sp := rfl

@[simp] theorem Statement.span_slet (nm : String) (ns : SourceSpan)
    (v : Expression) (sp : SourceSpan) :
    (Statement.slet nm ns v sp).span = sp := rfl

@[simp] theorem Statement.span_sexpr (e : Expression) (sp : SourceSpan) :
    (Statement.sexpr e sp).span = sp := rfl

/-- `ParseError` from `parser.hpp`: message plus the `incomplete` flag,
offending span, resolved location and caller-supplied source name. -/
structure ParseError where
  message : String
  incomplete : Bool
  span : SourceSpan
  location : SourceLocation
  source_name : String
deriving DecidableEq, Repr

/-- The parser's fields (`tokens_`, `line_offsets_`, `source_name_`).
The cursor `current_` is passed explicitly through every routine. -/
structure Parser where
  tokens : List Token
  line_offsets : List Nat
  source_name : String

/-- The `Parser` constructor: an empty line-offset table is replaced by
`[0]`. -/
def Parser.init (tokens : List Token) (line_offsets : List Nat)
    (source_name : String) : Parser :=
  ⟨tokens, if line_offsets.isEmpty then [0] else line_offsets, source_name⟩

/- `Parser::Precedence`.  The header in `src/` predates the lexer's
logical/bitwise operators and stops at `{Lowest, Assignment, Sum,
Product, Prefix}`; the four missing levels are modelled from the spec:
the precedence ladder is, low to high, assignment < logical-or <
logical-and < bitwise-or < bitwise-and < sum < product < prefix,
consecutive integers as in the header.  The C++ `Precedence::Prefix`
is spelled `PrefixLevel` here. -/
namespace Precedence

def Lowest : Nat := 0

def Assignment : Nat := 1

def LogicalOr : Nat := 2

def LogicalAnd : Nat := 3

def BitwiseOr : Nat := 4

def BitwiseAnd : Nat := 5

def Sum : Nat := 6

def Product : Nat := 7

def PrefixLevel : Nat := 8

end Precedence

/-- Which prefix parselet `find_prefix_rule` selects; the C++ table
stores closures, modelled here as a tag dispatched on in
`parse_expression` (the spec's own porting note suggests exactly this). -/
inductive PrefixKind where
  | pnumber | pstring | pboolean | pminus | pgrouping | pidentifier
  | pfunction | pblock | pif | pwhile | pfor
deriving DecidableEq, Repr

/-- Which infix parselet an `InfixRule` carries: `=` runs
`parse_assignment`, everything else `parse_binary_operator`. -/
inductive InfixKind where
  | kassign | kbinary
deriving DecidableEq, Repr

/-- `Parser::InfixRule` (precedence, associativity, parselet tag). -/
structure InfixRule where
  precedence : Nat
  right_associative : Bool
  kind : InfixKind
deriving DecidableEq, Repr

/-- `Parser::find_prefix_rule`. -/
def find_prefix_rule : TokenType → Option PrefixKind
  | .Number => some .pnumber
  | .String => some .pstring
  | .True => some .pboolean
  | .False => some .pboolean
  | .Minus => some .pminus
  | .LeftParen => some .pgrouping
  | .Identifier => some .pidentifier
  | .Fn => some .pfunction
  | .LeftBrace => some .pblock
  | .If => some .pif
  | .While => some .pwhile
  | .For => some .pfor
  | _ => none

/-- `Parser::find_infix_rule`. -/
def find_infix_rule : TokenType → Option InfixRule
  | .Equals => some ⟨Precedence.Assignment, true, .kassign⟩
  | .OrOr => some ⟨Precedence.LogicalOr, false, .kbinary⟩
  | .AndAnd => some ⟨Precedence.LogicalAnd, false, .kbinary⟩
  | .Pipe => some ⟨Precedence.BitwiseOr, false, .kbinary⟩
  | .Ampersand => some ⟨Precedence.BitwiseAnd, false, .kbinary⟩
  | .Plus => some ⟨Precedence.Sum, false, .kbinary⟩
  | .Minus => some ⟨Precedence.Sum, false, .kbinary⟩
  | .Star => some ⟨Precedence.Product, false, .kbinary⟩
  | .Slash => some ⟨Precedence.Product, false, .kbinary⟩
  | _ => none

/-- The floor passed to `parse_expression` for the right operand of a
binary operator: the operator's own precedence when right-associative,
one more when left-associative (this encodes associativity). -/
def next_precedence (operator_precedence : Nat) (right_associative : Bool) :
    Nat :=
  operator_precedence + (if right_associative then 0 else 1)

/-- `tokens_.at(i)`: under the in-bounds invariant proved below the
default is never returned (C++ `at` would throw `std::out_of_range`). -/
def Parser.tokAt (p : Parser) (i : Nat) : Token :=
  p.tokens.getD i ⟨.End, "", ⟨0, 0⟩⟩

/-- `Parser::peek()`. -/
def Parser.peek (p : Parser) (c : Nat) : Token := p.tokAt c

/-- `Parser::peek(offset)`: the index is clamped to the last token. -/
def Parser.peekOff (p : Parser) (c offset : Nat) : Token :=
  p.tokAt (min (c + offset) (p.tokens.length - 1))

/-- `Parser::check`. -/
def Parser.check (p : Parser) (c : Nat) (ty : TokenType) : Bool :=
  (p.peek c).type == ty

/-- `Parser::is_at_end`. -/
def Parser.is_at_end (p : Parser) (c : Nat) : Bool :=
  (p.peek c).type == .End

/-- `tokens_.back()`. -/
def Parser.tokensBack (p : Parser) : Token := p.tokAt (p.tokens.length - 1)

/-- `Parser::advance`: move past the current token and return it, except
at the `End` sentinel where the cursor stays put and the last token is
returned. -/
def Parser.advance (p : Parser) (c : Nat) : Token × Nat :=
  if p.is_at_end c then (p.tokensBack, c) else (p.peek c, c + 1)

/-- `Parser::make_error`. -/
def Parser.make_error (p : Parser) (message : String) (span : SourceSpan)
    (incomplete : Bool) : ParseError :=
  ⟨message, incomplete, span, location_for p.line_offsets span.start,
    p.source_name⟩

/-- `Parser::consume`: advance over a token of the expected type, or fail
with `incomplete = is_at_end()` and the span of the offending token
(`tokens_.back()` at end of input). -/
def Parser.consume (p : Parser) (c : Nat) (ty : TokenType)
    (message : String) : Except ParseError (Token × Nat) :=
  if p.check c ty then .ok (p.advance c)
  else .error (p.make_error message
    (if p.is_at_end c then p.tokensBack.span else (p.peek c).span)
    (p.is_at_end c))

/-- `Parser::match`. -/
def Parser.matchTok (p : Parser) (c : Nat) (ty : TokenType) : Bool × Nat :=
  if p.check c ty then (true, (p.advance c).2) else (false, c)

/-- The error produced if the recursion budget were ever exhausted.  The
budget `Parser.parse` supplies dominates the parser's recursion depth
(every call edge except `parse_sequence → parse_expression` follows at
least one token consumption), so this is unreachable from `parse`; it is
shaped exactly like a `consume` failure at the current token so that the
error-classification invariants hold for it as for every other error. -/
def Parser.fuelError (p : Parser) (c : Nat) : ParseError :=
  p.make_error "parser fuel exhausted"
    (if p.is_at_end c then p.tokensBack.span else (p.peek c).span)
    (p.is_at_end c)

/-- `Parser::parse_number` (the lexeme is kept verbatim, see `Token`). -/
def parse_number (literal : Token) : Expression :=
  .number literal.lexeme literal.span

/-- `Parser::parse_boolean`. -/
def parse_boolean (literal : Token) : Expression :=
  .boolean (literal.type == .True) literal.span

/-- `Parser::parse_string`. -/
def parse_string (literal : Token) : Expression :=
  .str literal.lexeme literal.span

/-- `Parser::parse_identifier`. -/
def parse_identifier (name : Token) : Expression :=
  .var name.lexeme name.span name.span

/-- `Parser::make_expression_statement`. -/
def make_expression_statement (expression : Expression) : Statement :=
  .sexpr expression expression.span

/- The recursive parsing routines of `parser.cpp`, one Lean function per
C++ member function, with the cursor threaded explicitly and a fuel
argument standing for the C++ call stack (see `Parser.fuelError`).  The
two `while` loops (the infix loop of `parse_expression` and the
statement loop of `parse_sequence`) and the parameter-list loop become
the recursions `parseInfixLoop`, `parse_sequence` and `paramLoop`; the
pushed-in-order vectors they build become the identically ordered lists
these recursions return. -/
mutual

/-- `Parser::parse_expression(precedence_floor)`: fail (incomplete) at
end of input, consume one token, dispatch its prefix rule (a missing rule
is a hard error, with special messages for `let` and `End`), then fold
infix rules while their precedence reaches the floor. -/
def parse_expression (p : Parser) (precedence_floor c fuel : Nat) :
    Except ParseError (Expression × Nat) :=
  match fuel with
  | 0 => .error (p.fuelError c)
  | fuel + 1 =>
    if p.is_at_end c then
      .error (p.make_error "Unexpected end of input while parsing expression"
        (p.peek c).span true)
    else
      match p.advance c with
      | (token, c1) =>
        match find_prefix_rule token.type with
        | none =>
          if token.type == .Let then
            .error (p.make_error "Unexpected 'let' while parsing expression"
              token.span false)
          else if token.type == .End then
            .error (p.make_error
              "Unexpected end of input while parsing expression" token.span true)
          else
            .error (p.make_error
              ("Unexpected token '" ++ token.lexeme ++ "' while parsing expression")
              token.span false)
        | some pk =>
          match runPrefixRule p pk token c1 fuel with
          | .error e => .error e
          | .ok (left, c2) => parseInfixLoop p precedence_floor left c2 fuel
termination_by structural fuel


/-- Dispatch of the prefix parselet selected by `find_prefix_rule`. -/
def runPrefixRule (p : Parser) (pk : PrefixKind) (token : Token)
    (c fuel : Nat) : Except ParseError (Expression × Nat) :=
  match fuel with
  | 0 => .error (p.fuelError c)
  | fuel + 1 =>
    match pk with
    | .pnumber => .ok (parse_number token, c)
    | .pstring => .ok (parse_string token, c)
    | .pboolean => .ok (parse_boolean token, c)
    | .pidentifier => .ok (parse_identifier token, c)
    | .pminus => parse_prefix_operator p token c fuel
    | .pgrouping => parse_grouping p token c fuel
    | .pfunction => parse_function_literal p token c fuel
    | .pblock => parse_block p token c fuel
    | .pif => parse_if p token c fuel
    | .pwhile => parse_while p token c fuel
    | .pfor => parse_for p token c fuel
termination_by structural fuel


/-- The `while` loop of `parse_expression`: fold infix operators whose
precedence is at least the floor into the left operand. -/
def parseInfixLoop (p : Parser) (precedence_floor : Nat) (left : Expression)
    (c fuel : Nat) : Except ParseError (Expression × Nat) :=
  match fuel with
  | 0 => .error (p.fuelError c)
  | fuel + 1 =>
    if p.is_at_end c then .ok (left, c)
    else
      match find_infix_rule (p.peek c).type with
      | none => .ok (left, c)
      | some rule =>
        if rule.precedence < precedence_floor then .ok (left, c)
        else
          match p.advance c with
          | (op, c1) =>
            match (match rule.kind with
              | .kassign => parse_assignment p left op rule.precedence c1 fuel
              | .kbinary =>
                parse_binary_operator p left op rule.precedence
                  rule.right_associative c1 fuel) with
            | .error e => .error e
            | .ok (left', c2) =>
              parseInfixLoop p precedence_floor left' c2 fuel
termination_by structural fuel


/-- `Parser::parse_grouping`: `()` is `Unit`; otherwise one expression
and a mandatory `)`. -/
def parse_grouping (p : Parser) (openTok : Token) (c fuel : Nat) :
    Except ParseError (Expression × Nat) :=
  match fuel with
  | 0 => .error (p.fuelError c)
  | fuel + 1 =>
    if p.check c .RightParen then
      match p.advance c with
      | (close, c1) => .ok (.unit ⟨openTok.span.start, close.span.stop⟩, c1)
    else
      match parse_expression p Precedence.Lowest c fuel with
      | .error e => .error e
      | .ok (expression, c1) =>
        match p.consume c1 .RightParen "Expected ')' after expression" with
        | .error e => .error e
        | .ok (close, c2) =>
          .ok (.grouping expression ⟨openTok.span.start, close.span.stop⟩, c2)
termination_by structural fuel


/-- `Parser::parse_prefix_operator`: the operand is parsed at the
`Prefix` precedence level. -/
def parse_prefix_operator (p : Parser) (op : Token) (c fuel : Nat) :
    Except ParseError (Expression × Nat) :=
  match fuel with
  | 0 => .error (p.fuelError c)
  | fuel + 1 =>
    match parse_expression p Precedence.PrefixLevel c fuel with
    | .error e => .error e
    | .ok (right, c1) =>
      .ok (.prefixOp op.type op.span right ⟨op.span.start, right.span.stop⟩, c1)
termination_by structural fuel


/-- `Parser::parse_binary_operator`: the right operand is parsed at
`next_precedence` (the operator's precedence, plus one when
left-associative). -/
def parse_binary_operator (p : Parser) (left : Expression) (op : Token)
    (operator_precedence : Nat) (right_associative : Bool) (c fuel : Nat) :
    Except ParseError (Expression × Nat) :=
  match fuel with
  | 0 => .error (p.fuelError c)
  | fuel + 1 =>
    match parse_expression p
        (next_precedence operator_precedence right_associative) c fuel with
    | .error e => .error e
    | .ok (right, c1) =>
      .ok (.infixOp op.type op.span left right
        ⟨left.span.start, right.span.stop⟩, c1)
termination_by structural fuel


/-- `Parser::parse_assignment`: the left operand must already be a bare
variable; the value is parsed at the assignment precedence itself
(right-associative). -/
def parse_assignment (p : Parser) (left : Expression) (op : Token)
    (precedence : Nat) (c fuel : Nat) : Except ParseError (Expression × Nat) :=
  match fuel with
  | 0 => .error (p.fuelError c)
  | fuel + 1 =>
    match left with
    | .var name name_span _ =>
      match parse_expression p precedence c fuel with
      | .error e => .error e
      | .ok (right, c1) =>
        .ok (.assign name name_span right
          ⟨left.span.start, right.span.stop⟩, c1)
    | _ =>
      .error (p.make_error "Left-hand side of assignment must be a variable"
        op.span false)
termination_by structural fuel


/-- `Parser::parse_sequence`: skip stray `;`, parse `let` statements
(trailing `;` required) and named-`fn` statements (trailing `;`
forbidden), and otherwise a full expression — with `;` it becomes an
expression statement, without it the single trailing value.  The C++
loop exits on the terminator, at end of input, or by `break` after
setting the value; `value` is the `sequence.value` accumulator it
checks. -/
def parse_sequence (p : Parser) (terminator : TokenType)
    (value : Option Expression) (c fuel : Nat) :
    Except ParseError (List Statement × Option Expression × Nat) :=
  match fuel with
  | 0 => .error (p.fuelError c)
  | fuel + 1 =>
    if p.check c terminator || p.is_at_end c then .ok ([], value, c)
    else if p.check c .Semicolon then
      parse_sequence p terminator value (p.advance c).2 fuel
    else if p.check c .Let then
      match parse_let_statement p c fuel with
      | .error e => .error e
      | .ok (stmt, c1) =>
        match p.consume c1 .Semicolon "Expected ';' after let statement" with
        | .error e => .error e
        | .ok (_, c2) =>
          match parse_sequence p terminator value c2 fuel with
          | .error e => .error e
          | .ok (stmts, v, c3) => .ok (stmt :: stmts, v, c3)
    else if p.check c .Fn && (p.peekOff c 1).type == .Identifier then
      match parse_fn_statement p c fuel with
      | .error e => .error e
      | .ok (stmt, c1) =>
        if p.check c1 .Semicolon then
          .error (p.make_error "Unexpected ';' after function definition"
            (p.peek c1).span false)
        else
          match parse_sequence p terminator value c1 fuel with
          | .error e => .error e
          | .ok (stmts, v, c2) => .ok (stmt :: stmts, v, c2)
    else
      match parse_expression p Precedence.Lowest c fuel with
      | .error e => .error e
      | .ok (expr, c1) =>
        match p.matchTok c1 .Semicolon with
        | (true, c2) =>
          match parse_sequence p terminator value c2 fuel with
          | .error e => .error e
          | .ok (stmts, v, c3) =>
            .ok (make_expression_statement expr :: stmts, v, c3)
        | (false, _) =>
          match value with
          | some _ =>
            .error (p.make_error "Unexpected expression after final expression"
              expr.span false)
          | none => .ok ([], some expr, c1)
termination_by structural fuel


/-- `Parser::parse_let_statement`. -/
def parse_let_statement (p : Parser) (c fuel : Nat) :
    Except ParseError (Statement × Nat) :=
  match fuel with
  | 0 => .error (p.fuelError c)
  | fuel + 1 =>
    match p.consume c .Let "Expected 'let'" with
    | .error e => .error e
    | .ok (let_token, c1) =>
      match p.consume c1 .Identifier "Expected identifier after 'let'" with
      | .error e => .error e
      | .ok (name, c2) =>
        match p.consume c2 .Equals "Expected '=' after identifier" with
        | .error e => .error e
        | .ok (_, c3) =>
          match parse_expression p Precedence.Lowest c3 fuel with
          | .error e => .error e
          | .ok (initializer, c4) =>
            .ok (.slet name.lexeme name.span initializer
              ⟨let_token.span.start, initializer.span.stop⟩, c4)
termination_by structural fuel


/-- `Parser::parse_fn_statement`: sugar for
`let <name> = <function-literal>`, the literal's span starting at the
`fn` keyword. -/
def parse_fn_statement (p : Parser) (c fuel : Nat) :
    Except ParseError (Statement × Nat) :=
  match fuel with
  | 0 => .error (p.fuelError c)
  | fuel + 1 =>
    match p.consume c .Fn "Expected 'fn'" with
    | .error e => .error e
    | .ok (fn_token, c1) =>
      match p.consume c1 .Identifier "Expected function name after 'fn'" with
      | .error e => .error e
      | .ok (name, c2) =>
        match parse_function_literal p fn_token c2 fuel with
        | .error e => .error e
        | .ok (function, c3) =>
          .ok (.slet name.lexeme name.span function
            ⟨fn_token.span.start, function.span.stop⟩, c3)
termination_by structural fuel


/-- `Parser::parse_function_literal`: `(`, comma-separated identifier
parameters, `)`, then one expression as the body. -/
def parse_function_literal (p : Parser) (fn_token : Token) (c fuel : Nat) :
    Except ParseError (Expression × Nat) :=
  match fuel with
  | 0 => .error (p.fuelError c)
  | fuel + 1 =>
    match p.consume c .LeftParen "Expected '(' after 'fn'" with
    | .error e => .error e
    | .ok (_, c1) =>
      match (if p.check c1 .RightParen then
          (.ok ([], c1) : Except ParseError (List Parameter × Nat))
        else paramLoop p c1 fuel) with
      | .error e => .error e
      | .ok (parameters, c2) =>
        match p.consume c2 .RightParen "Expected ')' after parameter list" with
        | .error e => .error e
        | .ok (_, c3) =>
          match parse_expression p Precedence.Lowest c3 fuel with
          | .error e => .error e
          | .ok (body, c4) =>
            .ok (.function parameters body
              ⟨fn_token.span.start, body.span.stop⟩, c4)
termination_by structural fuel


/-- The parameter loop of `parse_function_literal`: identifiers separated
by commas, ending at the first non-comma. -/
def paramLoop (p : Parser) (c fuel : Nat) :
    Except ParseError (List Parameter × Nat) :=
  match fuel with
  | 0 => .error (p.fuelError c)
  | fuel + 1 =>
    match p.consume c .Identifier "Expected parameter name" with
    | .error e => .error e
    | .ok (parameter, c1) =>
      match p.matchTok c1 .Comma with
      | (true, c2) =>
        match paramLoop p c2 fuel with
        | .error e => .error e
        | .ok (rest, c3) => .ok (⟨parameter.lexeme, parameter.span⟩ :: rest, c3)
      | (false, _) => .ok ([⟨parameter.lexeme, parameter.span⟩], c1)
termination_by structural fuel


/-- `Parser::parse_block`: a sequence terminated by `}`. -/
def parse_block (p : Parser) (openTok : Token) (c fuel : Nat) :
    Except ParseError (Expression × Nat) :=
  match fuel with
  | 0 => .error (p.fuelError c)
  | fuel + 1 =>
    match parse_sequence p .RightBrace none c fuel with
    | .error e => .error e
    | .ok (statements, value, c1) =>
      match p.consume c1 .RightBrace "Expected '\x7d' after block" with
      | .error e => .error e
      | .ok (close, c2) =>
        .ok (.block statements value
          ⟨openTok.span.start, close.span.stop⟩, c2)
termination_by structural fuel


/-- `Parser::parse_if`: condition and branch are plain expressions,
`else` optional. -/
def parse_if (p : Parser) (if_token : Token) (c fuel : Nat) :
    Except ParseError (Expression × Nat) :=
  match fuel with
  | 0 => .error (p.fuelError c)
  | fuel + 1 =>
    match parse_expression p Precedence.Lowest c fuel with
    | .error e => .error e
    | .ok (condition, c1) =>
      match parse_expression p Precedence.Lowest c1 fuel with
      | .error e => .error e
      | .ok (then_branch, c2) =>
        match p.matchTok c2 .Else with
        | (true, c3) =>
          match parse_expression p Precedence.Lowest c3 fuel with
          | .error e => .error e
          | .ok (else_branch, c4) =>
            .ok (.ifE condition then_branch (some else_branch)
              ⟨if_token.span.start, else_branch.span.stop⟩, c4)
        | (false, c3) =>
          .ok (.ifE condition then_branch none
            ⟨if_token.span.start, then_branch.span.stop⟩, c3)
termination_by structural fuel


/-- `Parser::parse_while`. -/
def parse_while (p : Parser) (while_token : Token) (c fuel : Nat) :
    Except ParseError (Expression × Nat) :=
  match fuel with
  | 0 => .error (p.fuelError c)
  | fuel + 1 =>
    match parse_expression p Precedence.Lowest c fuel with
    | .error e => .error e
    | .ok (condition, c1) =>
      match parse_expression p Precedence.Lowest c1 fuel with
      | .error e => .error e
      | .ok (body, c2) =>
        .ok (.whileE condition body ⟨while_token.span.start, body.span.stop⟩, c2)
termination_by structural fuel


/-- `Parser::parse_for`: identifier, `in`, iterable, body. -/
def parse_for (p : Parser) (for_token : Token) (c fuel : Nat) :
    Except ParseError (Expression × Nat) :=
  match fuel with
  | 0 => .error (p.fuelError c)
  | fuel + 1 =>
    match p.consume c .Identifier "Expected identifier after 'for'" with
    | .error e => .error e
    | .ok (identifier, c1) =>
      match p.consume c1 .In "Expected 'in' after loop variable" with
      | .error e => .error e
      | .ok (_, c2) =>
        match parse_expression p Precedence.Lowest c2 fuel with
        | .error e => .error e
        | .ok (iterable, c3) =>
          match parse_expression p Precedence.Lowest c3 fuel with
          | .error e => .error e
          | .ok (body, c4) =>
            .ok (.forE (parse_identifier identifier) iterable body
              ⟨for_token.span.start, body.span.stop⟩, c4)
termination_by structural fuel
end

/-- `Parser::parse`: one `parse_sequence` to the `End` sentinel, a
mandatory `End`, then the program is the bare value, a `Unit` for empty
input, or a `Block` spanning first statement to last value/statement. -/
def Parser.parse (p : Parser) : Except ParseError Expression :=
  match parse_sequence p .End none 0 (4 * p.tokens.length + 8) with
  | .error e => .error e
  | .ok (statements, value, c1) =>
    match p.consume c1 .End "Expected end of input" with
    | .error e => .error e
    | .ok _ =>
      match statements, value with
      | [], none => .ok (.unit p.tokensBack.span)
      | [], some v => .ok v
      | s :: ss, _ =>
        .ok (.block (s :: ss) value
          ⟨s.span.start,
            match value with
            | some v => v.span.stop
            | none => (List.getLastD ss s).span.stop⟩)

/-- End-to-end helper mirroring the tests' `parse_and_print` setup:
tokenize, then parse with source name `<test>` (the pretty-printing half
is outside this development's scope). -/
def parseSource (source : String) : Except String (Except ParseError Expression) :=
  match tokenize source with
  | .error e => .error e
  | .ok r => .ok (Parser.parse (Parser.init r.tokens r.line_offsets "<test>"))

/-! ## Well-formed token streams

`Lexer::tokenize` produces a stream whose final element is the single
`End` sentinel with the zero-width one-past-end span, in which every
other token has a nonempty span, and whose spans are ascending.  `WF`
captures exactly these facts; it is the hypothesis under which the
parser-level claims are stated. -/

/-- Index of the last token (`tokens_.size() - 1`). -/
def Parser.lastIdx (p : Parser) : Nat := p.tokens.length - 1

/-- Well-formedness of a parser's token stream, with `N` the one-past-end
offset of the source. -/
def WF (p : Parser) (N : Nat) : Prop :=
  1 ≤ p.tokens.length ∧
  p.tokAt p.lastIdx = ⟨.End, "", ⟨N, N⟩⟩ ∧
  (∀ i, i < p.lastIdx → (p.tokAt i).type ≠ .End) ∧
  (∀ i, i < p.lastIdx → (p.tokAt i).span.start < (p.tokAt i).span.stop) ∧
  (∀ i, i < p.lastIdx → (p.tokAt i).span.stop ≤ (p.tokAt (i + 1)).span.start)

instance WF.dec (p : Parser) (N : Nat) : Decidable (WF p N) :=
  inferInstanceAs (Decidable (_ ≤ _ ∧ _ = _ ∧
    (∀ i, i < _ → _ ≠ _) ∧ (∀ i, i < _ → _ < _) ∧ (∀ i, i < _ → _ ≤ _)))

section WFLemmas

variable {p : Parser} {N : Nat}

theorem WF.tok_last (h : WF p N) : p.tokAt p.lastIdx = ⟨.End, "", ⟨N, N⟩⟩ :=
  h.2.1

theorem WF.ne_end (h : WF p N) {i : Nat} (hi : i < p.lastIdx) :
    (p.tokAt i).type ≠ .End := h.2.2.1 i hi

theorem WF.valid (h : WF p N) {i : Nat} (hi : i < p.lastIdx) :
    (p.tokAt i).span.start < (p.tokAt i).span.stop := h.2.2.2.1 i hi

theorem WF.asc (h : WF p N) {i : Nat} (hi : i + 1 ≤ p.lastIdx) :
    (p.tokAt i).span.stop ≤ (p.tokAt (i + 1)).span.start := h.2.2.2.2 i hi

theorem WF.start_le_stop (h : WF p N) {i : Nat} (hi : i ≤ p.lastIdx) :
    (p.tokAt i).span.start ≤ (p.tokAt i).span.stop := by
  rcases Nat.lt_or_ge i p.lastIdx with hlt | hge
  · exact Nat.le_of_lt (h.valid hlt)
  · have : i = p.lastIdx := Nat.le_antisymm hi hge
    rw [this, h.tok_last]

theorem WF.start_mono (h : WF p N) {i j : Nat} (hij : i ≤ j)
    (hj : j ≤ p.lastIdx) :
    (p.tokAt i).span.start ≤ (p.tokAt j).span.start := by
  induction j with
  | zero => simp_all
  | succ j ih =>
    rcases Nat.lt_or_ge i (j + 1) with hlt | hge
    · have hj' : j ≤ p.lastIdx := Nat.le_of_succ_le hj
      have h1 : (p.tokAt i).span.start ≤ (p.tokAt j).span.start :=
        ih (Nat.lt_succ_iff.mp hlt) hj'
      have h2 : (p.tokAt j).span.start ≤ (p.tokAt j).span.stop :=
        h.start_le_stop hj'
      have h3 : (p.tokAt j).span.stop ≤ (p.tokAt (j + 1)).span.start := h.asc hj
      omega
    · have : i = j + 1 := Nat.le_antisymm hij hge
      rw [this]

theorem WF.stop_mono (h : WF p N) {i j : Nat} (hij : i ≤ j)
    (hj : j ≤ p.lastIdx) :
    (p.tokAt i).span.stop ≤ (p.tokAt j).span.stop := by
  induction j with
  | zero => simp_all
  | succ j ih =>
    rcases Nat.lt_or_ge i (j + 1) with hlt | hge
    · have hj' : j ≤ p.lastIdx := Nat.le_of_succ_le hj
      have h1 : (p.tokAt i).span.stop ≤ (p.tokAt j).span.stop :=
        ih (Nat.lt_succ_iff.mp hlt) hj'
      have h3 : (p.tokAt j).span.stop ≤ (p.tokAt (j + 1)).span.start := h.asc hj
      have h4 : (p.tokAt (j + 1)).span.start ≤ (p.tokAt (j + 1)).span.stop :=
        h.start_le_stop hj
      omega
    · have : i = j + 1 := Nat.le_antisymm hij hge
      rw [this]

theorem WF.stop_le_start (h : WF p N) {i j : Nat} (hij : i < j)
    (hj : j ≤ p.lastIdx) :
    (p.tokAt i).span.stop ≤ (p.tokAt j).span.start := by
  have h1 : (p.tokAt i).span.stop ≤ (p.tokAt (i + 1)).span.start :=
    h.asc (Nat.le_trans hij hj)
  have h2 : (p.tokAt (i + 1)).span.start ≤ (p.tokAt j).span.start :=
    h.start_mono hij hj
  omega

/-- Under `WF`, `is_at_end` at an in-bounds cursor means exactly "at the
`End` sentinel's index". -/
theorem WF.is_at_end_iff (h : WF p N) {c : Nat} (hc : c ≤ p.lastIdx) :
    p.is_at_end c = true ↔ c = p.lastIdx := by
  unfold Parser.is_at_end Parser.peek
  constructor
  · intro he
    by_contra hne
    exact h.ne_end (Nat.lt_of_le_of_ne hc hne) (by simpa using he)
  · intro he
    subst he
    rw [h.tok_last]
    rfl

theorem WF.is_at_end_last (h : WF p N) : p.is_at_end p.lastIdx = true :=
  (h.is_at_end_iff (Nat.le_refl _)).mpr rfl

theorem WF.not_at_end (h : WF p N) {c : Nat} (hc : c < p.lastIdx) :
    p.is_at_end c = false := by
  by_contra hne
  have : p.is_at_end c = true := by
    cases hx : p.is_at_end c
    · exact absurd hx hne
    · rfl
  exact absurd ((h.is_at_end_iff (Nat.le_of_lt hc)).mp this)
    (Nat.ne_of_lt hc)

theorem Parser.tokensBack_eq (p : Parser) : p.tokensBack = p.tokAt p.lastIdx :=
  rfl

/-- `advance` below the sentinel returns the current token and moves the
cursor. -/
theorem WF.advance_mid (h : WF p N) {c : Nat} (hc : c < p.lastIdx) :
    p.advance c = (p.tokAt c, c + 1) := by
  unfold Parser.advance
  rw [h.not_at_end hc]
  rfl

/-- `advance` at the sentinel stands still. -/
theorem WF.advance_last (h : WF p N) : p.advance p.lastIdx =
    (p.tokAt p.lastIdx, p.lastIdx) := by
  unfold Parser.advance
  rw [h.is_at_end_last]
  simp [Parser.tokensBack_eq]

/-- Spans of non-sentinel tokens are nonempty, hence never the sentinel's
zero-width span. -/
theorem WF.span_ne_end (h : WF p N) {i : Nat} (hi : i < p.lastIdx) :
    (p.tokAt i).span ≠ (⟨N, N⟩ : SourceSpan) := by
  intro he
  have := h.valid hi
  rw [he] at this
  exact Nat.lt_irrefl _ this

end WFLemmas

/-! ## Span enclosure (claim C4)

`inSpan outer inner` says `inner` lies inside `outer`.  `EnclosesE`
states, variant by variant, that a node's span encloses the spans of all
its children (and, where both endpoints are children rather than
keyword/delimiter tokens, that the endpoints are exactly the extreme
children's endpoints, as the parser constructs them). -/

def inSpan (outer inner : SourceSpan) : Prop :=
  outer.start ≤ inner.start ∧ inner.stop ≤ outer.stop

mutual

def EnclosesE : Expression → Prop
  | .number _ _ => True
  | .boolean _ _ => True
  | .str _ _ => True
  | .var _ name_span sp => name_span = sp
  | .prefixOp _ op_span right sp =>
      sp.start = op_span.start ∧ sp.stop = right.span.stop ∧
      inSpan sp op_span ∧ inSpan sp right.span ∧ EnclosesE right
  | .infixOp _ op_span left right sp =>
      sp.start = left.span.start ∧ sp.stop = right.span.stop ∧
      inSpan sp left.span ∧ inSpan sp op_span ∧ inSpan sp right.span ∧
      EnclosesE left ∧ EnclosesE right
  | .grouping e sp => inSpan sp e.span ∧ EnclosesE e
  | .unit _ => True
  | .assign _ name_span value sp =>
      sp.start = name_span.start ∧ sp.stop = value.span.stop ∧
      inSpan sp name_span ∧ inSpan sp value.span ∧ EnclosesE value
  | .block statements (some v) sp =>
      (∀ s ∈ statements, inSpan sp s.span) ∧ EnclosesSL statements ∧
      inSpan sp v.span ∧ EnclosesE v
  | .block statements none sp =>
      (∀ s ∈ statements, inSpan sp s.span) ∧ EnclosesSL statements
  | .ifE condition thenB (some e) sp =>
      sp.stop = e.span.stop ∧ inSpan sp condition.span ∧
      inSpan sp thenB.span ∧ inSpan sp e.span ∧
      EnclosesE condition ∧ EnclosesE thenB ∧ EnclosesE e
  | .ifE condition thenB none sp =>
      sp.stop = thenB.span.stop ∧ inSpan sp condition.span ∧
      inSpan sp thenB.span ∧ EnclosesE condition ∧ EnclosesE thenB
  | .whileE condition body sp =>
      sp.stop = body.span.stop ∧ inSpan sp condition.span ∧
      inSpan sp body.span ∧ EnclosesE condition ∧ EnclosesE body
  | .forE pat iterable body sp =>
      sp.stop = body.span.stop ∧ inSpan sp pat.span ∧
      inSpan sp iterable.span ∧ inSpan sp body.span ∧
      EnclosesE pat ∧ EnclosesE iterable ∧ EnclosesE body
  | .function parameters body sp =>
      sp.stop = body.span.stop ∧ (∀ prm ∈ parameters, inSpan sp prm.span) ∧
      inSpan sp body.span ∧ EnclosesE body

def EnclosesSL : List Statement → Prop
  | [] => True
  | s :: rest => EnclosesS s ∧ EnclosesSL rest

def EnclosesS : Statement → Prop
  | .slet _ name_span value sp =>
      sp.stop = value.span.stop ∧ inSpan sp name_span ∧
      inSpan sp value.span ∧ EnclosesE value
  | .sexpr e sp => sp = e.span ∧ EnclosesE e

end

/-! ## The parser invariant

One induction over the recursion fuel establishes, for every parsing
routine simultaneously: every error it can return classifies correctly
(`incomplete` is set exactly when the failure is at the `End` sentinel,
equivalently when the error span is the sentinel's zero-width span —
claim C1), the cursor stays within the token vector (claim C10), and
every tree it can return spans exactly its consumed token range and
encloses its children (claim C4). -/

/-- Correct error classification: under `WF` the `End` sentinel is the
only token with span `⟨N, N⟩`, so "the failure token is the sentinel" is
equivalent to "the error span is `⟨N, N⟩`". -/
def ErrOK (N : Nat) (e : ParseError) : Prop :=
  e.incomplete = true ↔ e.span = ⟨N, N⟩

/-- A successful expression parse starting at cursor `c`: the cursor
advanced but stayed in bounds, the span runs from the start of token `c`
to the end of the last consumed token, and the tree encloses its
children. -/
def ExprOut (p : Parser) (c : Nat) (r : Expression × Nat) : Prop :=
  c < r.2 ∧ r.2 ≤ p.lastIdx ∧
  r.1.span.start = (p.tokAt c).span.start ∧
  r.1.span.stop = (p.tokAt (r.2 - 1)).span.stop ∧
  EnclosesE r.1

/-- As `ExprOut`, for statements. -/
def StmtOut (p : Parser) (c : Nat) (r : Statement × Nat) : Prop :=
  c < r.2 ∧ r.2 ≤ p.lastIdx ∧
  r.1.span.start = (p.tokAt c).span.start ∧
  r.1.span.stop = (p.tokAt (r.2 - 1)).span.stop ∧
  EnclosesS r.1

/-- The spans of a statement sequence's elements, in source order. -/
def seqSpans (stmts : List Statement) (value : Option Expression) :
    List SourceSpan :=
  stmts.map Statement.span ++
    (match value with | some v => [v.span] | none => [])

/-- A successful `parse_sequence` run: cursor monotone and in bounds,
every element well formed, every element's span inside the consumed
token range, and the element spans pairwise ordered. -/
def SeqOut (p : Parser) (c : Nat)
    (r : List Statement × Option Expression × Nat) : Prop :=
  c ≤ r.2.2 ∧ r.2.2 ≤ p.lastIdx ∧
  (∀ s ∈ r.1, EnclosesS s) ∧
  (∀ v, r.2.1 = some v → EnclosesE v) ∧
  (∀ sp ∈ seqSpans r.1 r.2.1,
    (p.tokAt c).span.start ≤ sp.start ∧
    sp.stop ≤ (p.tokAt (r.2.2 - 1)).span.stop ∧ sp.start ≤ sp.stop) ∧
  List.Chain' (fun a b => a.stop ≤ b.start) (seqSpans r.1 r.2.1)

/-- A successful `parse_function_literal` run: `cf` is the index of the
`fn` token the span starts at, `c` the cursor the routine was entered
with. -/
def FnOut (p : Parser) (cf c : Nat) (r : Expression × Nat) : Prop :=
  c < r.2 ∧ r.2 ≤ p.lastIdx ∧
  r.1.span.start = (p.tokAt cf).span.start ∧
  r.1.span.stop = (p.tokAt (r.2 - 1)).span.stop ∧
  EnclosesE r.1

/-- A successful `paramLoop` run: parameters' spans lie in the consumed
range. -/
def ParamsOut (p : Parser) (c : Nat) (r : List Parameter × Nat) : Prop :=
  c < r.2 ∧ r.2 ≤ p.lastIdx ∧
  (∀ prm ∈ r.1,
    (p.tokAt c).span.start ≤ prm.span.start ∧
    prm.span.stop ≤ (p.tokAt (r.2 - 1)).span.stop)

/-- Constructor for `SeqOut` with the tuple projections pre-reduced. -/
theorem SeqOut.mk {p : Parser} {c : Nat} {sts : List Statement}
    {v : Option Expression} {c' : Nat}
    (h1 : c ≤ c') (h2 : c' ≤ p.lastIdx) (h3 : ∀ s ∈ sts, EnclosesS s)
    (h4 : ∀ x, v = some x → EnclosesE x)
    (h5 : ∀ sp ∈ seqSpans sts v,
      (p.tokAt c).span.start ≤ sp.start ∧
      sp.stop ≤ (p.tokAt (c' - 1)).span.stop ∧ sp.start ≤ sp.stop)
    (h6 : List.Chain' (fun a b => a.stop ≤ b.start) (seqSpans sts v)) :
    SeqOut p c (sts, v, c') :=
  ⟨h1, h2, h3, h4, h5, h6⟩

/-- Result classification for expression-returning routines. -/
def ResOK (p : Parser) (N c : Nat) :
    Except ParseError (Expression × Nat) → Prop
  | .error e => ErrOK N e
  | .ok r => ExprOut p c r

/-- Result classification for statement-returning routines. -/
def ResOKS (p : Parser) (N c : Nat) :
    Except ParseError (Statement × Nat) → Prop
  | .error e => ErrOK N e
  | .ok r => StmtOut p c r

/-- Result classification for `parse_sequence`. -/
def ResOKSeq (p : Parser) (N c : Nat) :
    Except ParseError (List Statement × Option Expression × Nat) → Prop
  | .error e => ErrOK N e
  | .ok r => SeqOut p c r

/-- Result classification for `parse_function_literal`. -/
def ResOKFn (p : Parser) (N cf c : Nat) :
    Except ParseError (Expression × Nat) → Prop
  | .error e => ErrOK N e
  | .ok r => FnOut p cf c r

/-- Result classification for `paramLoop`. -/
def ResOKParams (p : Parser) (N c : Nat) :
    Except ParseError (List Parameter × Nat) → Prop
  | .error e => ErrOK N e
  | .ok r => ParamsOut p c r

section ErrLemmas

variable {p : Parser} {N : Nat}

theorem ErrOK.of_true {e : ParseError} (hi : e.incomplete = true)
    (hs : e.span = ⟨N, N⟩) : ErrOK N e := by
  unfold ErrOK; rw [hi, hs]; simp

theorem ErrOK.of_false {e : ParseError} (hi : e.incomplete = false)
    (hs : e.span ≠ ⟨N, N⟩) : ErrOK N e := by
  unfold ErrOK; rw [hi]; simp [hs]

/-- Any error built from the `consume`-style span/incomplete pair at an
in-bounds cursor classifies correctly. -/
theorem WF.atSpanError_ok (hwf : WF p N) {c : Nat} (hc : c ≤ p.lastIdx)
    (msg : String) :
    ErrOK N (p.make_error msg
      (if p.is_at_end c then p.tokensBack.span else (p.peek c).span)
      (p.is_at_end c)) := by
  rcases Nat.lt_or_ge c p.lastIdx with hlt | hge
  · rw [hwf.not_at_end hlt]
    exact ErrOK.of_false rfl (by simpa [Parser.peek] using hwf.span_ne_end hlt)
  · have he : c = p.lastIdx := Nat.le_antisymm hc hge
    subst he
    rw [hwf.is_at_end_last]
    refine ErrOK.of_true rfl ?_
    show p.tokensBack.span = _
    rw [Parser.tokensBack_eq, hwf.tok_last]

theorem WF.fuelError_ok (hwf : WF p N) {c : Nat} (hc : c ≤ p.lastIdx) :
    ErrOK N (p.fuelError c) :=
  hwf.atSpanError_ok hc _

theorem Parser.check_iff {p : Parser} {c : Nat} {ty : TokenType} :
    p.check c ty = true ↔ (p.tokAt c).type = ty := by
  simp [Parser.check, Parser.peek]

/-- A successful `consume` of a non-`End` token type: the consumed token
is the current one, which had the expected type, and the cursor moved
one step while staying in bounds. -/
theorem WF.consume_ok_spec (hwf : WF p N) {c c' : Nat} {ty : TokenType}
    {msg : String} {t : Token} (hc : c ≤ p.lastIdx) (hty : ty ≠ .End)
    (h : p.consume c ty msg = .ok (t, c')) :
    t = p.tokAt c ∧ (p.tokAt c).type = ty ∧ c' = c + 1 ∧ c < p.lastIdx := by
  unfold Parser.consume at h
  by_cases hck : p.check c ty
  · have hty' : (p.tokAt c).type = ty := Parser.check_iff.mp hck
    have hlt : c < p.lastIdx := by
      rcases Nat.lt_or_ge c p.lastIdx with hlt | hge
      · exact hlt
      · exfalso
        have he : c = p.lastIdx := Nat.le_antisymm hc hge
        rw [he, hwf.tok_last] at hty'
        exact hty hty'.symm
    rw [if_pos hck, hwf.advance_mid hlt] at h
    cases h
    exact ⟨rfl, hty', rfl, hlt⟩
  · rw [if_neg hck] at h
    cases h

/-- A failed `consume` classifies correctly. -/
theorem WF.consume_err_spec (hwf : WF p N) {c : Nat} {ty : TokenType}
    {msg : String} {e : ParseError} (hc : c ≤ p.lastIdx)
    (h : p.consume c ty msg = .error e) : ErrOK N e := by
  unfold Parser.consume at h
  by_cases hck : p.check c ty
  · rw [if_pos hck] at h; cases h
  · rw [if_neg hck] at h
    cases h
    exact hwf.atSpanError_ok hc msg

/-- A successful `matchTok` of a non-`End` type. -/
theorem WF.matchTok_true_spec (hwf : WF p N) {c c' : Nat} {ty : TokenType}
    (hc : c ≤ p.lastIdx) (hty : ty ≠ .End)
    (h : p.matchTok c ty = (true, c')) :
    (p.tokAt c).type = ty ∧ c' = c + 1 ∧ c < p.lastIdx := by
  unfold Parser.matchTok at h
  by_cases hck : p.check c ty
  · have hty' : (p.tokAt c).type = ty := Parser.check_iff.mp hck
    have hlt : c < p.lastIdx := by
      rcases Nat.lt_or_ge c p.lastIdx with hlt | hge
      · exact hlt
      · exfalso
        have he : c = p.lastIdx := Nat.le_antisymm hc hge
        rw [he, hwf.tok_last] at hty'
        exact hty hty'.symm
    rw [if_pos hck, hwf.advance_mid hlt] at h
    cases h
    exact ⟨hty', rfl, hlt⟩
  · rw [if_neg hck] at h
    cases h

theorem Parser.matchTok_false_spec {p : Parser} {c c' : Nat}
    {ty : TokenType} (h : p.matchTok c ty = (false, c')) : c' = c := by
  unfold Parser.matchTok at h
  by_cases hck : p.check c ty
  · rw [if_pos hck] at h; cases h
  · rw [if_neg hck] at h; cases h; rfl

end ErrLemmas

theorem EnclosesSL_iff {l : List Statement} :
    EnclosesSL l ↔ ∀ s ∈ l, EnclosesS s := by
  induction l with
  | nil => simp [EnclosesSL]
  | cons s rest ih =>
    simp only [EnclosesSL, ih, List.mem_cons]
    constructor
    · rintro ⟨h1, h2⟩ x (rfl | hx)
      · exact h1
      · exact h2 x hx
    · intro h
      exact ⟨h s (Or.inl rfl), fun x hx => h x (Or.inr hx)⟩

theorem chain'_cons_of_bound {l : List SourceSpan} {a : SourceSpan}
    (hb : ∀ sp ∈ l, a.stop ≤ sp.start)
    (hc : List.Chain' (fun x y => x.stop ≤ y.start) l) :
    List.Chain' (fun x y => x.stop ≤ y.start) (a :: l) := by
  cases l with
  | nil => simp
  | cons b t => exact hc.cons (hb b (List.mem_cons_self b t))

theorem seqSpans_cons (s : Statement) (sts : List Statement)
    (v : Option Expression) :
    seqSpans (s :: sts) v = s.span :: seqSpans sts v := by
  simp [seqSpans]

theorem mem_seqSpans_of_mem {s : Statement} {sts : List Statement}
    {v : Option Expression} (h : s ∈ sts) : s.span ∈ seqSpans sts v := by
  unfold seqSpans
  exact List.mem_append_left _ (List.mem_map_of_mem Statement.span h)

theorem value_mem_seqSpans (sts : List Statement) (v : Expression) :
    v.span ∈ seqSpans sts (some v) := by
  unfold seqSpans
  exact List.mem_append_right _ (by simp)

/-- The simultaneous invariant of all parsing routines at a given fuel.
Routines that receive an already-consumed token (`parse_grouping` & co.
get the prefix token, the infix parselets the operator) are constrained
at their actual call pattern: the token is the one at the cursor just
before the routine's entry cursor, and for the infix parselets the left
operand spans the tokens from `c0` to `cL - 1`. -/
structure MasterP (p : Parser) (N : Nat) (fuel : Nat) : Prop where
  expr : ∀ floor c, c ≤ p.lastIdx →
    ResOK p N c (parse_expression p floor c fuel)
  pfx : ∀ pk c, c < p.lastIdx →
    ResOK p N c (runPrefixRule p pk (p.tokAt c) (c + 1) fuel)
  loop : ∀ floor left c0 cL, c0 < cL → cL ≤ p.lastIdx →
    left.span.start = (p.tokAt c0).span.start →
    left.span.stop = (p.tokAt (cL - 1)).span.stop →
    EnclosesE left → ResOK p N c0 (parseInfixLoop p floor left cL fuel)
  grp : ∀ c, c < p.lastIdx →
    ResOK p N c (parse_grouping p (p.tokAt c) (c + 1) fuel)
  pre : ∀ c, c < p.lastIdx →
    ResOK p N c (parse_prefix_operator p (p.tokAt c) (c + 1) fuel)
  bin : ∀ prec ra left c0 cL, c0 < cL → cL < p.lastIdx →
    left.span.start = (p.tokAt c0).span.start →
    left.span.stop = (p.tokAt (cL - 1)).span.stop →
    EnclosesE left →
    ResOK p N c0 (parse_binary_operator p left (p.tokAt cL) prec ra (cL + 1) fuel)
  asn : ∀ prec left c0 cL, c0 < cL → cL < p.lastIdx →
    left.span.start = (p.tokAt c0).span.start →
    left.span.stop = (p.tokAt (cL - 1)).span.stop →
    EnclosesE left →
    ResOK p N c0 (parse_assignment p left (p.tokAt cL) prec (cL + 1) fuel)
  seq : ∀ term c, c ≤ p.lastIdx →
    ResOKSeq p N c (parse_sequence p term none c fuel)
  lets : ∀ c, c ≤ p.lastIdx → ResOKS p N c (parse_let_statement p c fuel)
  fns : ∀ c, c ≤ p.lastIdx → ResOKS p N c (parse_fn_statement p c fuel)
  fnlit : ∀ cf c, cf < c → c ≤ p.lastIdx →
    ResOKFn p N cf c (parse_function_literal p (p.tokAt cf) c fuel)
  params : ∀ c, c ≤ p.lastIdx → ResOKParams p N c (paramLoop p c fuel)
  blk : ∀ c, c < p.lastIdx →
    ResOK p N c (parse_block p (p.tokAt c) (c + 1) fuel)
  ifs : ∀ c, c < p.lastIdx →
    ResOK p N c (parse_if p (p.tokAt c) (c + 1) fuel)
  whiles : ∀ c, c < p.lastIdx →
    ResOK p N c (parse_while p (p.tokAt c) (c + 1) fuel)
  fors : ∀ c, c < p.lastIdx →
    ResOK p N c (parse_for p (p.tokAt c) (c + 1) fuel)


set_option maxHeartbeats 1000000 in
/-- The master induction: all parsing routines satisfy their invariant at
every fuel.  The zero case holds because fuel exhaustion is shaped like a
`consume` failure; the successor case walks every routine's branches. -/
theorem master (p : Parser) (N : Nat) (hwf : WF p N) :
    ∀ fuel, MasterP p N fuel := by
  intro fuel
  induction fuel with
  | zero =>
    refine ⟨?_, ?_, ?_, ?_, ?_, ?_, ?_, ?_, ?_, ?_, ?_, ?_, ?_, ?_, ?_, ?_⟩
    · intro floor c hc
      simp only [parse_expression]
      exact hwf.fuelError_ok hc
    · intro pk c hc
      simp only [runPrefixRule]
      exact hwf.fuelError_ok (Nat.succ_le_of_lt hc)
    · intro floor left c0 cL h1 h2 h3 h4 h5
      simp only [parseInfixLoop]
      exact hwf.fuelError_ok h2
    · intro c hc
      simp only [parse_grouping]
      exact hwf.fuelError_ok (Nat.succ_le_of_lt hc)
    · intro c hc
      simp only [parse_prefix_operator]
      exact hwf.fuelError_ok (Nat.succ_le_of_lt hc)
    · intro prec ra left c0 cL h1 h2 h3 h4 h5
      simp only [parse_binary_operator]
      exact hwf.fuelError_ok (Nat.succ_le_of_lt h2)
    · intro prec left c0 cL h1 h2 h3 h4 h5
      simp only [parse_assignment]
      exact hwf.fuelError_ok (Nat.succ_le_of_lt h2)
    · intro term c hc
      simp only [parse_sequence]
      exact hwf.fuelError_ok hc
    · intro c hc
      simp only [parse_let_statement]
      exact hwf.fuelError_ok hc
    · intro c hc
      simp only [parse_fn_statement]
      exact hwf.fuelError_ok hc
    · intro cf c hcf hc
      simp only [parse_function_literal]
      exact hwf.fuelError_ok hc
    · intro c hc
      simp only [paramLoop]
      exact hwf.fuelError_ok hc
    · intro c hc
      simp only [parse_block]
      exact hwf.fuelError_ok (Nat.succ_le_of_lt hc)
    · intro c hc
      simp only [parse_if]
      exact hwf.fuelError_ok (Nat.succ_le_of_lt hc)
    · intro c hc
      simp only [parse_while]
      exact hwf.fuelError_ok (Nat.succ_le_of_lt hc)
    · intro c hc
      simp only [parse_for]
      exact hwf.fuelError_ok (Nat.succ_le_of_lt hc)
  | succ n ih =>
    refine { expr := ?expr, pfx := ?pfx, loop := ?loop, grp := ?grp,
             pre := ?pre, bin := ?bin, asn := ?asn, seq := ?seq,
             lets := ?lets, fns := ?fns, fnlit := ?fnlit, params := ?params,
             blk := ?blk, ifs := ?ifs, whiles := ?whiles, fors := ?fors }
    case expr =>
      intro floor c hc
      simp only [parse_expression]
      by_cases hae : p.is_at_end c = true
      · rw [if_pos hae]
        refine ErrOK.of_true rfl ?_
        have he : c = p.lastIdx := (hwf.is_at_end_iff hc).mp hae
        show (p.peek c).span = _
        rw [he]
        unfold Parser.peek
        rw [hwf.tok_last]
      · rw [if_neg hae]
        have hlt : c < p.lastIdx := by
          rcases Nat.lt_or_ge c p.lastIdx with hlt | hge
          · exact hlt
          · exact absurd ((hwf.is_at_end_iff hc).mpr
              (Nat.le_antisymm hc hge)) hae
        rw [hwf.advance_mid hlt]
        dsimp only
        cases hR : find_prefix_rule (p.tokAt c).type with
        | none =>
          dsimp only
          by_cases hLet : ((p.tokAt c).type == TokenType.Let) = true
          · rw [if_pos hLet]
            exact ErrOK.of_false rfl (hwf.span_ne_end hlt)
          · rw [if_neg hLet]
            have hEnd : ¬(((p.tokAt c).type == TokenType.End) = true) := by
              simpa using hwf.ne_end hlt
            rw [if_neg hEnd]
            exact ErrOK.of_false rfl (hwf.span_ne_end hlt)
        | some pk =>
          dsimp only
          have hx := ih.pfx pk c hlt
          cases hP : runPrefixRule p pk (p.tokAt c) (c + 1) n with
          | error e =>
            rw [hP] at hx
            exact hx
          | ok r =>
            obtain ⟨left, c2⟩ := r
            rw [hP] at hx
            have hb1 : c < c2 := hx.1
            have hb2 : c2 ≤ p.lastIdx := hx.2.1
            have hb3 : left.span.start = (p.tokAt c).span.start := hx.2.2.1
            have hb4 : left.span.stop = (p.tokAt (c2 - 1)).span.stop := hx.2.2.2.1
            have hb5 : EnclosesE left := hx.2.2.2.2
            exact ih.loop floor left c c2 hb1 hb2 hb3 hb4 hb5
    case pfx =>
      intro pk c hc
      have hc1 : c + 1 ≤ p.lastIdx := Nat.succ_le_of_lt hc
      cases pk with
      | pnumber =>
        simp only [runPrefixRule]
        exact ⟨Nat.lt_succ_self c, hc1, rfl, rfl, trivial⟩
      | pstring =>
        simp only [runPrefixRule]
        exact ⟨Nat.lt_succ_self c, hc1, rfl, rfl, trivial⟩
      | pboolean =>
        simp only [runPrefixRule]
        exact ⟨Nat.lt_succ_self c, hc1, rfl, rfl, trivial⟩
      | pidentifier =>
        simp only [runPrefixRule]
        refine ⟨Nat.lt_succ_self c, hc1, rfl, rfl, ?_⟩
        simp [parse_identifier, EnclosesE]
      | pminus =>
        simp only [runPrefixRule]
        exact ih.pre c hc
      | pgrouping =>
        simp only [runPrefixRule]
        exact ih.grp c hc
      | pfunction =>
        simp only [runPrefixRule]
        have hx := ih.fnlit c (c + 1) (Nat.lt_succ_self c) hc1
        cases hF : parse_function_literal p (p.tokAt c) (c + 1) n with
        | error e =>
          rw [hF] at hx
          exact hx
        | ok r =>
          rw [hF] at hx
          obtain ⟨fl, c2⟩ := r
          have hb1 : c + 1 < c2 := hx.1
          exact ⟨by omega, hx.2.1, hx.2.2.1, hx.2.2.2.1, hx.2.2.2.2⟩
      | pblock =>
        simp only [runPrefixRule]
        exact ih.blk c hc
      | pif =>
        simp only [runPrefixRule]
        exact ih.ifs c hc
      | pwhile =>
        simp only [runPrefixRule]
        exact ih.whiles c hc
      | pfor =>
        simp only [runPrefixRule]
        exact ih.fors c hc
    case loop =>
      intro floor left c0 cL h0 hcl hls1 hls2 hlenc
      simp only [parseInfixLoop]
      by_cases hae : p.is_at_end cL = true
      · rw [if_pos hae]
        exact ⟨h0, hcl, hls1, hls2, hlenc⟩
      · rw [if_neg hae]
        have hlt : cL < p.lastIdx := by
          rcases Nat.lt_or_ge cL p.lastIdx with hlt | hge
          · exact hlt
          · exact absurd ((hwf.is_at_end_iff hcl).mpr
              (Nat.le_antisymm hcl hge)) hae
        cases hR : find_infix_rule (p.peek cL).type with
        | none => exact ⟨h0, hcl, hls1, hls2, hlenc⟩
        | some rule =>
          dsimp only
          by_cases hpr : rule.precedence < floor
          · rw [if_pos hpr]
            exact ⟨h0, hcl, hls1, hls2, hlenc⟩
          · rw [if_neg hpr]
            rw [hwf.advance_mid hlt]
            dsimp only
            have hinner : ResOK p N c0
                (match rule.kind with
                  | .kassign =>
                    parse_assignment p left (p.tokAt cL) rule.precedence (cL + 1) n
                  | .kbinary =>
                    parse_binary_operator p left (p.tokAt cL) rule.precedence
                      rule.right_associative (cL + 1) n) := by
              cases hk : rule.kind with
              | kassign =>
                exact ih.asn rule.precedence left c0 cL h0 hlt hls1 hls2 hlenc
              | kbinary =>
                exact ih.bin rule.precedence rule.right_associative left c0 cL
                  h0 hlt hls1 hls2 hlenc
            cases hI : (match rule.kind with
                | InfixKind.kassign =>
                  parse_assignment p left (p.tokAt cL) rule.precedence (cL + 1) n
                | InfixKind.kbinary =>
                  parse_binary_operator p left (p.tokAt cL) rule.precedence
                    rule.right_associative (cL + 1) n) with
            | error e =>
              rw [hI] at hinner
              exact hinner
            | ok r =>
              obtain ⟨left2, c2⟩ := r
              rw [hI] at hinner
              have hb1 : c0 < c2 := hinner.1
              have hb2 : c2 ≤ p.lastIdx := hinner.2.1
              have hb3 : left2.span.start = (p.tokAt c0).span.start := hinner.2.2.1
              have hb4 : left2.span.stop = (p.tokAt (c2 - 1)).span.stop := hinner.2.2.2.1
              have hb5 : EnclosesE left2 := hinner.2.2.2.2
              exact ih.loop floor left2 c0 c2 hb1 hb2 hb3 hb4 hb5
    case grp =>
      intro c hc
      have hc1 : c + 1 ≤ p.lastIdx := Nat.succ_le_of_lt hc
      simp only [parse_grouping]
      by_cases hck : p.check (c + 1) .RightParen = true
      · rw [if_pos hck]
        have hty : (p.tokAt (c + 1)).type = .RightParen := Parser.check_iff.mp hck
        have hlt : c + 1 < p.lastIdx := by
          rcases Nat.lt_or_ge (c + 1) p.lastIdx with hlt | hge
          · exact hlt
          · exfalso
            have he : c + 1 = p.lastIdx := Nat.le_antisymm hc1 hge
            rw [he, hwf.tok_last] at hty
            cases hty
        rw [hwf.advance_mid hlt]
        exact ⟨by omega, by omega, rfl, rfl, trivial⟩
      · rw [if_neg hck]
        cases hE : parse_expression p Precedence.Lowest (c + 1) n with
        | error e =>
          have hx := ih.expr Precedence.Lowest (c + 1) hc1
          rw [hE] at hx
          exact hx
        | ok r =>
          obtain ⟨e1, c1⟩ := r
          have hx := ih.expr Precedence.Lowest (c + 1) hc1
          rw [hE] at hx
          have hra : c + 1 < c1 := hx.1
          have hrb : c1 ≤ p.lastIdx := hx.2.1
          have hrs1 : e1.span.start = (p.tokAt (c + 1)).span.start := hx.2.2.1
          have hrs2 : e1.span.stop = (p.tokAt (c1 - 1)).span.stop := hx.2.2.2.1
          have hrenc : EnclosesE e1 := hx.2.2.2.2
          dsimp only
          cases hC : p.consume c1 .RightParen "Expected ')' after expression" with
          | error e2 => exact hwf.consume_err_spec hrb hC
          | ok r2 =>
            obtain ⟨close, c2⟩ := r2
            obtain ⟨hcl1, hcl2, hcl3, hcl4⟩ :=
              hwf.consume_ok_spec hrb (by simp) hC
            subst hcl1
            subst hcl3
            refine ⟨by omega, by omega, rfl, ?_, ?_⟩
            · simp only [Expression.span, Nat.add_sub_cancel]
            · simp only [EnclosesE, inSpan]
              refine ⟨⟨?_, ?_⟩, hrenc⟩
              · rw [hrs1]
                exact hwf.start_mono (Nat.le_succ c) hc1
              · rw [hrs2]
                exact hwf.stop_mono (by omega) (by omega)
    case pre =>
      intro c hc
      have hc1 : c + 1 ≤ p.lastIdx := Nat.succ_le_of_lt hc
      simp only [parse_prefix_operator]
      cases hE : parse_expression p Precedence.PrefixLevel (c + 1) n with
      | error e =>
        have hx := ih.expr Precedence.PrefixLevel (c + 1) hc1
        rw [hE] at hx
        exact hx
      | ok r =>
        obtain ⟨right, c1⟩ := r
        have hx := ih.expr Precedence.PrefixLevel (c + 1) hc1
        rw [hE] at hx
        have ha : c + 1 < c1 := hx.1
        have hb : c1 ≤ p.lastIdx := hx.2.1
        have hs1 : right.span.start = (p.tokAt (c + 1)).span.start := hx.2.2.1
        have hs2 : right.span.stop = (p.tokAt (c1 - 1)).span.stop := hx.2.2.2.1
        have hencl : EnclosesE right := hx.2.2.2.2
        have hc1m : c ≤ c1 - 1 := by omega
        have hbm : c1 - 1 ≤ p.lastIdx := by omega
        have hopstop : (p.tokAt c).span.stop ≤ (p.tokAt (c1 - 1)).span.stop :=
          hwf.stop_mono hc1m hbm
        have hstart : (p.tokAt c).span.start ≤ (p.tokAt (c + 1)).span.start :=
          hwf.start_mono (Nat.le_succ c) hc1
        refine ⟨by omega, hb, rfl, ?_, ?_⟩
        · simpa [Expression.span] using hs2
        · simp only [EnclosesE, inSpan]
          refine ⟨trivial, trivial, ⟨Nat.le_refl _, ?_⟩, ⟨?_, Nat.le_refl _⟩, hencl⟩
          · rw [hs2]
            exact hopstop
          · rw [hs1]
            exact hstart
    case bin =>
      intro prec ra left c0 cL h0 hcl hls1 hls2 hlenc
      have hc1 : cL + 1 ≤ p.lastIdx := Nat.succ_le_of_lt hcl
      simp only [parse_binary_operator]
      cases hE : parse_expression p (next_precedence prec ra) (cL + 1) n with
      | error e =>
        have hx := ih.expr (next_precedence prec ra) (cL + 1) hc1
        rw [hE] at hx
        exact hx
      | ok r =>
        obtain ⟨right, c1⟩ := r
        have hx := ih.expr (next_precedence prec ra) (cL + 1) hc1
        rw [hE] at hx
        have hra : cL + 1 < c1 := hx.1
        have hrb : c1 ≤ p.lastIdx := hx.2.1
        have hrs1 : right.span.start = (p.tokAt (cL + 1)).span.start := hx.2.2.1
        have hrs2 : right.span.stop = (p.tokAt (c1 - 1)).span.stop := hx.2.2.2.1
        have hrenc : EnclosesE right := hx.2.2.2.2
        refine ⟨by omega, hrb, ?_, ?_, ?_⟩
        · simpa [Expression.span] using hls1
        · simpa [Expression.span] using hrs2
        · simp only [EnclosesE, inSpan]
          refine ⟨trivial, trivial, ⟨Nat.le_refl _, ?_⟩, ⟨?_, ?_⟩,
            ⟨?_, Nat.le_refl _⟩, hlenc, hrenc⟩
          · rw [hls2, hrs2]
            exact hwf.stop_mono (by omega) (by omega)
          · rw [hls1]
            exact hwf.start_mono (Nat.le_of_lt h0) (Nat.le_of_lt hcl)
          · rw [hrs2]
            exact hwf.stop_mono (by omega) (by omega)
          · rw [hls1, hrs1]
            exact hwf.start_mono (by omega) hc1
    case asn =>
      intro prec left c0 cL h0 hcl hls1 hls2 hlenc
      have hc1 : cL + 1 ≤ p.lastIdx := Nat.succ_le_of_lt hcl
      cases left
      case var name name_span spl =>
        simp only [parse_assignment]
        simp only [Expression.span_var] at hls1 hls2
        have hns : name_span = spl := by
          simpa [EnclosesE] using hlenc
        cases hns
        cases hE : parse_expression p prec (cL + 1) n with
        | error e =>
          have hx := ih.expr prec (cL + 1) hc1
          rw [hE] at hx
          exact hx
        | ok r =>
          obtain ⟨right, c1⟩ := r
          have hx := ih.expr prec (cL + 1) hc1
          rw [hE] at hx
          have hra : cL + 1 < c1 := hx.1
          have hrb : c1 ≤ p.lastIdx := hx.2.1
          have hrs1 : right.span.start = (p.tokAt (cL + 1)).span.start := hx.2.2.1
          have hrs2 : right.span.stop = (p.tokAt (c1 - 1)).span.stop := hx.2.2.2.1
          have hrenc : EnclosesE right := hx.2.2.2.2
          refine ⟨by omega, hrb, ?_, ?_, ?_⟩
          · simp only [Expression.span_assign, Expression.span_var]
            exact hls1
          · simp only [Expression.span_assign, Expression.span_var]
            exact hrs2
          · simp only [EnclosesE, inSpan, Expression.span_assign,
              Expression.span_var]
            refine ⟨trivial, trivial, ⟨Nat.le_refl _, ?_⟩,
              ⟨?_, Nat.le_refl _⟩, hrenc⟩
            · rw [hls2, hrs2]
              exact hwf.stop_mono (by omega) (by omega)
            · rw [hls1, hrs1]
              exact hwf.start_mono (by omega) hc1
      all_goals
        simp only [parse_assignment]
        exact ErrOK.of_false rfl (hwf.span_ne_end hcl)
    case seq =>
      intro term c hc
      simp only [parse_sequence]
      by_cases h1 : (p.check c term || p.is_at_end c) = true
      · rw [if_pos h1]
        exact SeqOut.mk (Nat.le_refl _) hc (by simp) (by simp)
          (by simp [seqSpans]) (by simp [seqSpans])
      · rw [if_neg h1]
        have hne : c < p.lastIdx := by
          rcases Nat.lt_or_ge c p.lastIdx with hlt | hge
          · exact hlt
          · exfalso
            apply h1
            have : c = p.lastIdx := Nat.le_antisymm hc hge
            subst this
            simp [hwf.is_at_end_last]
        by_cases h2 : p.check c .Semicolon = true
        · rw [if_pos h2]
          rw [hwf.advance_mid hne]
          have hcc : c + 1 ≤ p.lastIdx := Nat.succ_le_of_lt hne
          cases hS : parse_sequence p term none (c + 1) n with
          | error e =>
            have hx := ih.seq term (c + 1) hcc
            rw [hS] at hx
            exact hx
          | ok r =>
            obtain ⟨sts, v, c1⟩ := r
            have hx := ih.seq term (c + 1) hcc
            rw [hS] at hx
            have hq1 : c + 1 ≤ c1 := hx.1
            refine SeqOut.mk (by omega) hx.2.1 hx.2.2.1 hx.2.2.2.1 ?_
              hx.2.2.2.2.2
            intro sp hsp
            obtain ⟨ha, hb, hv⟩ := hx.2.2.2.2.1 sp hsp
            exact ⟨Nat.le_trans (hwf.start_mono (Nat.le_succ c) hcc) ha,
              hb, hv⟩
        · rw [if_neg h2]
          by_cases h3 : p.check c .Let = true
          · rw [if_pos h3]
            cases hL : parse_let_statement p c n with
            | error e =>
              have hx := ih.lets c hc
              rw [hL] at hx
              exact hx
            | ok r =>
              obtain ⟨stmt, c1⟩ := r
              have hx := ih.lets c hc
              rw [hL] at hx
              have hsa : c < c1 := hx.1
              have hsb : c1 ≤ p.lastIdx := hx.2.1
              have hss1 : stmt.span.start = (p.tokAt c).span.start := hx.2.2.1
              have hss2 : stmt.span.stop = (p.tokAt (c1 - 1)).span.stop := hx.2.2.2.1
              have hsen : EnclosesS stmt := hx.2.2.2.2
              dsimp only
              cases hC : p.consume c1 .Semicolon "Expected ';' after let statement" with
              | error e => exact hwf.consume_err_spec hsb hC
              | ok r2 =>
                obtain ⟨tk2, c2⟩ := r2
                obtain ⟨hj1, hj2, hj3, hj4⟩ := hwf.consume_ok_spec hsb (by simp) hC
                subst hj1
                subst hj3
                dsimp only
                have hcc : c1 + 1 ≤ p.lastIdx := Nat.succ_le_of_lt hj4
                cases hS : parse_sequence p term none (c1 + 1) n with
                | error e =>
                  have hy := ih.seq term (c1 + 1) hcc
                  rw [hS] at hy
                  exact hy
                | ok r3 =>
                  obtain ⟨sts, v, c3⟩ := r3
                  have hy := ih.seq term (c1 + 1) hcc
                  rw [hS] at hy
                  have hq1 : c1 + 1 ≤ c3 := hy.1
                  have hq2 : c3 ≤ p.lastIdx := hy.2.1
                  have hq3 : ∀ s ∈ sts, EnclosesS s := hy.2.2.1
                  have hq5 : ∀ sp ∈ seqSpans sts v,
                      (p.tokAt (c1 + 1)).span.start ≤ sp.start ∧
                      sp.stop ≤ (p.tokAt (c3 - 1)).span.stop ∧
                      sp.start ≤ sp.stop := hy.2.2.2.2.1
                  refine SeqOut.mk (by omega) hq2 ?_ hy.2.2.2.1 ?_ ?_
                  · intro s hs
                    rcases List.mem_cons.mp hs with rfl | hs2
                    · exact hsen
                    · exact hq3 s hs2
                  · intro sp hsp
                    rw [seqSpans_cons] at hsp
                    rcases List.mem_cons.mp hsp with rfl | hsp2
                    · refine ⟨by rw [hss1], ?_, ?_⟩
                      · rw [hss2]
                        exact hwf.stop_mono (by omega) (by omega)
                      · rw [hss1, hss2]
                        have h5 := hwf.start_mono
                          (show c ≤ c1 - 1 by omega) (by omega)
                        have h6 := hwf.start_le_stop
                          (show c1 - 1 ≤ p.lastIdx by omega)
                        omega
                    · obtain ⟨ha, hb, hv⟩ := hq5 sp hsp2
                      exact ⟨Nat.le_trans
                        (hwf.start_mono (by omega) (by omega)) ha, hb, hv⟩
                  · rw [seqSpans_cons]
                    refine chain'_cons_of_bound ?_ hy.2.2.2.2.2
                    intro sp hsp
                    obtain ⟨ha, _, _⟩ := hq5 sp hsp
                    rw [hss2]
                    refine Nat.le_trans ?_ ha
                    exact hwf.stop_le_start (by omega) (by omega)
          · rw [if_neg h3]
            by_cases h4 : (p.check c .Fn &&
                ((p.peekOff c 1).type == TokenType.Identifier)) = true
            · rw [if_pos h4]
              cases hF : parse_fn_statement p c n with
              | error e =>
                have hx := ih.fns c hc
                rw [hF] at hx
                exact hx
              | ok r =>
                obtain ⟨stmt, c1⟩ := r
                have hx := ih.fns c hc
                rw [hF] at hx
                have hsa : c < c1 := hx.1
                have hsb : c1 ≤ p.lastIdx := hx.2.1
                have hss1 : stmt.span.start = (p.tokAt c).span.start := hx.2.2.1
                have hss2 : stmt.span.stop = (p.tokAt (c1 - 1)).span.stop := hx.2.2.2.1
                have hsen : EnclosesS stmt := hx.2.2.2.2
                dsimp only
                by_cases h5 : p.check c1 .Semicolon = true
                · rw [if_pos h5]
                  have hty : (p.tokAt c1).type = .Semicolon :=
                    Parser.check_iff.mp h5
                  have hlt1 : c1 < p.lastIdx := by
                    rcases Nat.lt_or_ge c1 p.lastIdx with hlt | hge
                    · exact hlt
                    · exfalso
                      have he : c1 = p.lastIdx := Nat.le_antisymm hsb hge
                      rw [he, hwf.tok_last] at hty
                      cases hty
                  exact ErrOK.of_false rfl (hwf.span_ne_end hlt1)
                · rw [if_neg h5]
                  cases hS : parse_sequence p term none c1 n with
                  | error e =>
                    have hy := ih.seq term c1 hsb
                    rw [hS] at hy
                    exact hy
                  | ok r3 =>
                    obtain ⟨sts, v, c3⟩ := r3
                    have hy := ih.seq term c1 hsb
                    rw [hS] at hy
                    have hq1 : c1 ≤ c3 := hy.1
                    have hq2 : c3 ≤ p.lastIdx := hy.2.1
                    have hq3 : ∀ s ∈ sts, EnclosesS s := hy.2.2.1
                    have hq5 : ∀ sp ∈ seqSpans sts v,
                        (p.tokAt c1).span.start ≤ sp.start ∧
                        sp.stop ≤ (p.tokAt (c3 - 1)).span.stop ∧
                        sp.start ≤ sp.stop := hy.2.2.2.2.1
                    refine SeqOut.mk (by omega) hq2 ?_ hy.2.2.2.1 ?_ ?_
                    · intro s hs
                      rcases List.mem_cons.mp hs with rfl | hs2
                      · exact hsen
                      · exact hq3 s hs2
                    · intro sp hsp
                      rw [seqSpans_cons] at hsp
                      rcases List.mem_cons.mp hsp with rfl | hsp2
                      · refine ⟨by rw [hss1], ?_, ?_⟩
                        · rw [hss2]
                          exact hwf.stop_mono (by omega) (by omega)
                        · rw [hss1, hss2]
                          have h6 := hwf.start_mono
                            (show c ≤ c1 - 1 by omega) (by omega)
                          have h7 := hwf.start_le_stop
                            (show c1 - 1 ≤ p.lastIdx by omega)
                          omega
                      · obtain ⟨ha, hb, hv⟩ := hq5 sp hsp2
                        exact ⟨Nat.le_trans
                          (hwf.start_mono (by omega) (by omega)) ha, hb, hv⟩
                    · rw [seqSpans_cons]
                      refine chain'_cons_of_bound ?_ hy.2.2.2.2.2
                      intro sp hsp
                      obtain ⟨ha, _, _⟩ := hq5 sp hsp
                      rw [hss2]
                      refine Nat.le_trans ?_ ha
                      exact hwf.stop_le_start (by omega) hsb
            · rw [if_neg h4]
              cases hE : parse_expression p Precedence.Lowest c n with
              | error e =>
                have hx := ih.expr Precedence.Lowest c hc
                rw [hE] at hx
                exact hx
              | ok r =>
                obtain ⟨expr, c1⟩ := r
                have hx := ih.expr Precedence.Lowest c hc
                rw [hE] at hx
                have hea : c < c1 := hx.1
                have heb : c1 ≤ p.lastIdx := hx.2.1
                have hes1 : expr.span.start = (p.tokAt c).span.start := hx.2.2.1
                have hes2 : expr.span.stop = (p.tokAt (c1 - 1)).span.stop := hx.2.2.2.1
                have heen : EnclosesE expr := hx.2.2.2.2
                dsimp only
                rcases hM : p.matchTok c1 .Semicolon with ⟨mb, c2⟩
                cases mb with
                | true =>
                  obtain ⟨hm1, hm2, hm3⟩ :=
                    hwf.matchTok_true_spec heb (by simp) hM
                  subst hm2
                  dsimp only
                  have hcc : c1 + 1 ≤ p.lastIdx := Nat.succ_le_of_lt hm3
                  cases hS : parse_sequence p term none (c1 + 1) n with
                  | error e =>
                    have hy := ih.seq term (c1 + 1) hcc
                    rw [hS] at hy
                    exact hy
                  | ok r3 =>
                    obtain ⟨sts, v, c3⟩ := r3
                    have hy := ih.seq term (c1 + 1) hcc
                    rw [hS] at hy
                    have hq1 : c1 + 1 ≤ c3 := hy.1
                    have hq2 : c3 ≤ p.lastIdx := hy.2.1
                    have hq3 : ∀ s ∈ sts, EnclosesS s := hy.2.2.1
                    have hq5 : ∀ sp ∈ seqSpans sts v,
                        (p.tokAt (c1 + 1)).span.start ≤ sp.start ∧
                        sp.stop ≤ (p.tokAt (c3 - 1)).span.stop ∧
                        sp.start ≤ sp.stop := hy.2.2.2.2.1
                    refine SeqOut.mk (by omega) hq2 ?_ hy.2.2.2.1 ?_ ?_
                    · intro s hs
                      rcases List.mem_cons.mp hs with rfl | hs2
                      · simp only [make_expression_statement, EnclosesS]
                        exact ⟨trivial, heen⟩
                      · exact hq3 s hs2
                    · intro sp hsp
                      rw [seqSpans_cons] at hsp
                      rcases List.mem_cons.mp hsp with rfl | hsp2
                      · simp only [make_expression_statement, Statement.span_sexpr]
                        refine ⟨by rw [hes1], ?_, ?_⟩
                        · rw [hes2]
                          exact hwf.stop_mono (by omega) (by omega)
                        · rw [hes1, hes2]
                          have h6 := hwf.start_mono
                            (show c ≤ c1 - 1 by omega) (by omega)
                          have h7 := hwf.start_le_stop
                            (show c1 - 1 ≤ p.lastIdx by omega)
                          omega
                      · obtain ⟨ha, hb, hv⟩ := hq5 sp hsp2
                        exact ⟨Nat.le_trans
                          (hwf.start_mono (by omega) (by omega)) ha, hb, hv⟩
                    · rw [seqSpans_cons]
                      refine chain'_cons_of_bound ?_ hy.2.2.2.2.2
                      intro sp hsp
                      obtain ⟨ha, _, _⟩ := hq5 sp hsp
                      simp only [make_expression_statement, Statement.span_sexpr]
                      rw [hes2]
                      refine Nat.le_trans ?_ ha
                      exact hwf.stop_le_start (by omega) (by omega)
                | false =>
                  dsimp only
                  refine SeqOut.mk (Nat.le_of_lt hea) heb (by simp) ?_ ?_ ?_
                  · intro v hv
                    cases hv
                    exact heen
                  · intro sp hsp
                    simp only [seqSpans, List.map_nil, List.nil_append,
                      List.mem_singleton] at hsp
                    subst hsp
                    refine ⟨by rw [hes1], by rw [hes2], ?_⟩
                    rw [hes1, hes2]
                    have h6 := hwf.start_mono
                      (show c ≤ c1 - 1 by omega) (by omega)
                    have h7 := hwf.start_le_stop
                      (show c1 - 1 ≤ p.lastIdx by omega)
                    omega
                  · simp [seqSpans]
    case lets =>
      intro c hc
      simp only [parse_let_statement]
      cases hC1 : p.consume c .Let "Expected 'let'" with
      | error e => exact hwf.consume_err_spec hc hC1
      | ok r1 =>
        obtain ⟨let_token, ci⟩ := r1
        obtain ⟨hi1, hi2, hi3, hi4⟩ := hwf.consume_ok_spec hc (by simp) hC1
        subst hi1
        subst hi3
        dsimp only
        have hc2 : c + 1 ≤ p.lastIdx := Nat.succ_le_of_lt hi4
        cases hC2 : p.consume (c + 1) .Identifier "Expected identifier after 'let'" with
        | error e => exact hwf.consume_err_spec hc2 hC2
        | ok r2 =>
          obtain ⟨name, cj⟩ := r2
          obtain ⟨hj1, hj2, hj3, hj4⟩ := hwf.consume_ok_spec hc2 (by simp) hC2
          subst hj1
          subst hj3
          dsimp only
          have hc3 : c + 1 + 1 ≤ p.lastIdx := Nat.succ_le_of_lt hj4
          cases hC3 : p.consume (c + 1 + 1) .Equals "Expected '=' after identifier" with
          | error e => exact hwf.consume_err_spec hc3 hC3
          | ok r3 =>
            obtain ⟨tk3, ck⟩ := r3
            obtain ⟨hk1, hk2, hk3, hk4⟩ := hwf.consume_ok_spec hc3 (by simp) hC3
            subst hk1
            subst hk3
            dsimp only
            have hc4 : c + 1 + 1 + 1 ≤ p.lastIdx := Nat.succ_le_of_lt hk4
            cases hE1 : parse_expression p Precedence.Lowest (c + 1 + 1 + 1) n with
            | error e =>
              have hx := ih.expr Precedence.Lowest (c + 1 + 1 + 1) hc4
              rw [hE1] at hx
              exact hx
            | ok r4 =>
              obtain ⟨initializer, c4⟩ := r4
              have hx := ih.expr Precedence.Lowest (c + 1 + 1 + 1) hc4
              rw [hE1] at hx
              have ha1 : c + 1 + 1 + 1 < c4 := hx.1
              have hb1 : c4 ≤ p.lastIdx := hx.2.1
              have hs11 : initializer.span.start = (p.tokAt (c + 1 + 1 + 1)).span.start := hx.2.2.1
              have hs12 : initializer.span.stop = (p.tokAt (c4 - 1)).span.stop := hx.2.2.2.1
              have henc1 : EnclosesE initializer := hx.2.2.2.2
              refine ⟨by omega, hb1, rfl, hs12, ?_⟩
              simp only [EnclosesS, inSpan]
              refine ⟨trivial, ⟨?_, ?_⟩, ⟨?_, Nat.le_refl _⟩, henc1⟩
              · exact hwf.start_mono (Nat.le_succ c) hc2
              · rw [hs12]
                exact hwf.stop_mono (by omega) (by omega)
              · rw [hs11]
                exact hwf.start_mono (by omega) hc4
    case fns =>
      intro c hc
      simp only [parse_fn_statement]
      cases hC1 : p.consume c .Fn "Expected 'fn'" with
      | error e => exact hwf.consume_err_spec hc hC1
      | ok r1 =>
        obtain ⟨fn_token, ci⟩ := r1
        obtain ⟨hi1, hi2, hi3, hi4⟩ := hwf.consume_ok_spec hc (by simp) hC1
        subst hi1
        subst hi3
        dsimp only
        have hc2 : c + 1 ≤ p.lastIdx := Nat.succ_le_of_lt hi4
        cases hC2 : p.consume (c + 1) .Identifier "Expected function name after 'fn'" with
        | error e => exact hwf.consume_err_spec hc2 hC2
        | ok r2 =>
          obtain ⟨name, cj⟩ := r2
          obtain ⟨hj1, hj2, hj3, hj4⟩ := hwf.consume_ok_spec hc2 (by simp) hC2
          subst hj1
          subst hj3
          dsimp only
          have hc3 : c + 1 + 1 ≤ p.lastIdx := Nat.succ_le_of_lt hj4
          cases hF : parse_function_literal p (p.tokAt c) (c + 1 + 1) n with
          | error e =>
            have hx := ih.fnlit c (c + 1 + 1) (by omega) hc3
            rw [hF] at hx
            exact hx
          | ok r3 =>
            obtain ⟨function, c3⟩ := r3
            have hx := ih.fnlit c (c + 1 + 1) (by omega) hc3
            rw [hF] at hx
            have ha1 : c + 1 + 1 < c3 := hx.1
            have hb1 : c3 ≤ p.lastIdx := hx.2.1
            have hs11 : function.span.start = (p.tokAt c).span.start := hx.2.2.1
            have hs12 : function.span.stop = (p.tokAt (c3 - 1)).span.stop := hx.2.2.2.1
            have henc1 : EnclosesE function := hx.2.2.2.2
            refine ⟨by omega, hb1, rfl, hs12, ?_⟩
            simp only [EnclosesS, inSpan]
            refine ⟨trivial, ⟨?_, ?_⟩, ⟨?_, Nat.le_refl _⟩, henc1⟩
            · exact hwf.start_mono (Nat.le_succ c) hc2
            · rw [hs12]
              exact hwf.stop_mono (by omega) (by omega)
            · rw [hs11]
    case fnlit =>
      intro cf c hcf hc
      simp only [parse_function_literal]
      cases hC1 : p.consume c .LeftParen "Expected '(' after 'fn'" with
      | error e => exact hwf.consume_err_spec hc hC1
      | ok r1 =>
        obtain ⟨tk1, ci⟩ := r1
        obtain ⟨hi1, hi2, hi3, hi4⟩ := hwf.consume_ok_spec hc (by simp) hC1
        subst hi1
        subst hi3
        dsimp only
        have hc2 : c + 1 ≤ p.lastIdx := Nat.succ_le_of_lt hi4
        have hparams : ∀ prms c2,
            (if p.check (c + 1) .RightParen = true then
              (.ok ([], c + 1) : Except ParseError (List Parameter × Nat))
            else paramLoop p (c + 1) n) = .ok (prms, c2) →
            c + 1 ≤ c2 ∧ c2 ≤ p.lastIdx ∧
            ∀ prm ∈ prms,
              (p.tokAt (c + 1)).span.start ≤ prm.span.start ∧
              prm.span.stop ≤ (p.tokAt (c2 - 1)).span.stop := by
          intro prms c2 hpr
          by_cases hck : p.check (c + 1) .RightParen = true
          · rw [if_pos hck] at hpr
            cases hpr
            exact ⟨Nat.le_refl _, hc2, by simp⟩
          · rw [if_neg hck] at hpr
            have hx := ih.params (c + 1) hc2
            rw [hpr] at hx
            exact ⟨Nat.le_of_lt hx.1, hx.2.1, hx.2.2⟩
        cases hPr : (if p.check (c + 1) .RightParen = true then
            (.ok ([], c + 1) : Except ParseError (List Parameter × Nat))
          else paramLoop p (c + 1) n) with
        | error e =>
          by_cases hck : p.check (c + 1) .RightParen = true
          · rw [if_pos hck] at hPr
            cases hPr
          · rw [if_neg hck] at hPr
            have hx := ih.params (c + 1) hc2
            rw [hPr] at hx
            exact hx
        | ok r2 =>
          obtain ⟨parameters, c2⟩ := r2
          obtain ⟨hp1, hp2, hp3⟩ := hparams parameters c2 hPr
          dsimp only
          cases hC2 : p.consume c2 .RightParen "Expected ')' after parameter list" with
          | error e => exact hwf.consume_err_spec hp2 hC2
          | ok r3 =>
            obtain ⟨tk2, cj⟩ := r3
            obtain ⟨hj1, hj2, hj3, hj4⟩ := hwf.consume_ok_spec hp2 (by simp) hC2
            subst hj1
            subst hj3
            dsimp only
            have hc3 : c2 + 1 ≤ p.lastIdx := Nat.succ_le_of_lt hj4
            cases hE1 : parse_expression p Precedence.Lowest (c2 + 1) n with
            | error e =>
              have hx := ih.expr Precedence.Lowest (c2 + 1) hc3
              rw [hE1] at hx
              exact hx
            | ok r4 =>
              obtain ⟨body, c4⟩ := r4
              have hx := ih.expr Precedence.Lowest (c2 + 1) hc3
              rw [hE1] at hx
              have ha1 : c2 + 1 < c4 := hx.1
              have hb1 : c4 ≤ p.lastIdx := hx.2.1
              have hs11 : body.span.start = (p.tokAt (c2 + 1)).span.start := hx.2.2.1
              have hs12 : body.span.stop = (p.tokAt (c4 - 1)).span.stop := hx.2.2.2.1
              have henc1 : EnclosesE body := hx.2.2.2.2
              refine ⟨by omega, hb1, rfl, hs12, ?_⟩
              simp only [EnclosesE, inSpan]
              refine ⟨trivial, ?_, ⟨?_, Nat.le_refl _⟩, henc1⟩
              · intro prm hprm
                obtain ⟨hq1, hq2⟩ := hp3 prm hprm
                constructor
                · exact Nat.le_trans
                    (hwf.start_mono (by omega) hc2) hq1
                · refine Nat.le_trans hq2 ?_
                  rw [hs12]
                  exact hwf.stop_mono (by omega) (by omega)
              · rw [hs11]
                exact hwf.start_mono (by omega) hc3
    case params =>
      intro c hc
      simp only [paramLoop]
      cases hC1 : p.consume c .Identifier "Expected parameter name" with
      | error e => exact hwf.consume_err_spec hc hC1
      | ok r1 =>
        obtain ⟨parameter, ci⟩ := r1
        obtain ⟨hi1, hi2, hi3, hi4⟩ := hwf.consume_ok_spec hc (by simp) hC1
        subst hi1
        subst hi3
        dsimp only
        have hc2 : c + 1 ≤ p.lastIdx := Nat.succ_le_of_lt hi4
        rcases hM : p.matchTok (c + 1) .Comma with ⟨mb, c2⟩
        cases mb with
        | false =>
          refine ⟨Nat.lt_succ_self c, hc2, ?_⟩
          intro prm hprm
          simp only [List.mem_singleton] at hprm
          subst hprm
          exact ⟨Nat.le_refl _, by simp⟩
        | true =>
          obtain ⟨hm1, hm2, hm3⟩ := hwf.matchTok_true_spec hc2 (by simp) hM
          subst hm2
          dsimp only
          have hc3 : c + 1 + 1 ≤ p.lastIdx := Nat.succ_le_of_lt hm3
          cases hP : paramLoop p (c + 1 + 1) n with
          | error e =>
            have hx := ih.params (c + 1 + 1) hc3
            rw [hP] at hx
            exact hx
          | ok r2 =>
            obtain ⟨rest, c3⟩ := r2
            have hx := ih.params (c + 1 + 1) hc3
            rw [hP] at hx
            have ha1 : c + 1 + 1 < c3 := hx.1
            have hb1 : c3 ≤ p.lastIdx := hx.2.1
            have hmem : ∀ prm ∈ rest,
                (p.tokAt (c + 1 + 1)).span.start ≤ prm.span.start ∧
                prm.span.stop ≤ (p.tokAt (c3 - 1)).span.stop := hx.2.2
            refine ⟨by omega, hb1, ?_⟩
            intro prm hprm
            rcases List.mem_cons.mp hprm with rfl | hmem2
            · refine ⟨Nat.le_refl _, ?_⟩
              show (p.tokAt c).span.stop ≤ _
              exact hwf.stop_mono (by omega) (by omega)
            · obtain ⟨hq1, hq2⟩ := hmem prm hmem2
              refine ⟨?_, hq2⟩
              exact Nat.le_trans (hwf.start_mono (by omega) hc3) hq1
    case blk =>
      intro c hc
      have hc1 : c + 1 ≤ p.lastIdx := Nat.succ_le_of_lt hc
      simp only [parse_block]
      cases hS : parse_sequence p .RightBrace none (c + 1) n with
      | error e =>
        have hx := ih.seq .RightBrace (c + 1) hc1
        rw [hS] at hx
        exact hx
      | ok r =>
        obtain ⟨statements, value, c1⟩ := r
        have hx := ih.seq .RightBrace (c + 1) hc1
        rw [hS] at hx
        have hq1 : c + 1 ≤ c1 := hx.1
        have hq2 : c1 ≤ p.lastIdx := hx.2.1
        have hq3 : ∀ s ∈ statements, EnclosesS s := hx.2.2.1
        have hq4 : ∀ v, value = some v → EnclosesE v := hx.2.2.2.1
        have hq5 : ∀ sp ∈ seqSpans statements value,
            (p.tokAt (c + 1)).span.start ≤ sp.start ∧
            sp.stop ≤ (p.tokAt (c1 - 1)).span.stop ∧ sp.start ≤ sp.stop :=
          hx.2.2.2.2.1
        dsimp only
        cases hC : p.consume c1 .RightBrace "Expected '\x7d' after block" with
        | error e => exact hwf.consume_err_spec hq2 hC
        | ok r2 =>
          obtain ⟨close, c2⟩ := r2
          obtain ⟨hj1, hj2, hj3, hj4⟩ := hwf.consume_ok_spec hq2 (by simp) hC
          subst hj1
          subst hj3
          refine ⟨by omega, by omega, rfl, ?_, ?_⟩
          · simp only [Expression.span_block, Nat.add_sub_cancel]
          · have hin : ∀ sp ∈ seqSpans statements value,
                inSpan ⟨(p.tokAt c).span.start, (p.tokAt c1).span.stop⟩ sp := by
              intro sp hsp
              obtain ⟨ha, hb, hcv⟩ := hq5 sp hsp
              constructor
              · exact Nat.le_trans (hwf.start_mono (Nat.le_succ c) hc1) ha
              · exact Nat.le_trans hb (hwf.stop_mono (by omega) hq2)
            cases value with
            | none =>
              simp only [EnclosesE]
              refine ⟨?_, EnclosesSL_iff.mpr hq3⟩
              intro s hs
              exact hin s.span (mem_seqSpans_of_mem hs)
            | some v =>
              simp only [EnclosesE]
              refine ⟨?_, EnclosesSL_iff.mpr hq3, ?_, hq4 v rfl⟩
              · intro s hs
                exact hin s.span (mem_seqSpans_of_mem hs)
              · exact hin v.span (value_mem_seqSpans statements v)
    case ifs =>
      intro c hc
      have hc1 : c + 1 ≤ p.lastIdx := Nat.succ_le_of_lt hc
      simp only [parse_if]
      cases hE1 : parse_expression p Precedence.Lowest (c + 1) n with
      | error e =>
        have hx := ih.expr Precedence.Lowest (c + 1) hc1
        rw [hE1] at hx
        exact hx
      | ok r1 =>
        obtain ⟨cond, c1⟩ := r1
        have hx := ih.expr Precedence.Lowest (c + 1) hc1
        rw [hE1] at hx
        have ha1 : c + 1 < c1 := hx.1
        have hb1 : c1 ≤ p.lastIdx := hx.2.1
        have hs11 : cond.span.start = (p.tokAt (c + 1)).span.start := hx.2.2.1
        have hs12 : cond.span.stop = (p.tokAt (c1 - 1)).span.stop := hx.2.2.2.1
        have henc1 : EnclosesE cond := hx.2.2.2.2
        dsimp only
        cases hE2 : parse_expression p Precedence.Lowest c1 n with
        | error e =>
          have hy := ih.expr Precedence.Lowest c1 hb1
          rw [hE2] at hy
          exact hy
        | ok r2 =>
          obtain ⟨thenB, c2⟩ := r2
          have hy := ih.expr Precedence.Lowest c1 hb1
          rw [hE2] at hy
          have ha2 : c1 < c2 := hy.1
          have hb2 : c2 ≤ p.lastIdx := hy.2.1
          have hs21 : thenB.span.start = (p.tokAt c1).span.start := hy.2.2.1
          have hs22 : thenB.span.stop = (p.tokAt (c2 - 1)).span.stop := hy.2.2.2.1
          have henc2 : EnclosesE thenB := hy.2.2.2.2
          dsimp only
          rcases hM : p.matchTok c2 .Else with ⟨mb, c3⟩
          cases mb with
          | false =>
            have hc3 : c3 = c2 := Parser.matchTok_false_spec hM
            subst hc3
            refine ⟨by omega, hb2, rfl, hs22, ?_⟩
            simp only [EnclosesE, inSpan]
            refine ⟨trivial, ⟨?_, ?_⟩, ⟨?_, Nat.le_refl _⟩, henc1, henc2⟩
            · rw [hs11]
              exact hwf.start_mono (Nat.le_succ c) hc1
            · rw [hs12, hs22]
              exact hwf.stop_mono (by omega) (by omega)
            · rw [hs21]
              exact hwf.start_mono (by omega) hb1
          | true =>
            obtain ⟨hm1, hm2, hm3⟩ := hwf.matchTok_true_spec hb2 (by simp) hM
            subst hm2
            have hc3 : c2 + 1 ≤ p.lastIdx := Nat.succ_le_of_lt hm3
            dsimp only
            cases hE3 : parse_expression p Precedence.Lowest (c2 + 1) n with
            | error e =>
              have hz := ih.expr Precedence.Lowest (c2 + 1) hc3
              rw [hE3] at hz
              exact hz
            | ok r3 =>
              obtain ⟨eb, c4⟩ := r3
              have hz := ih.expr Precedence.Lowest (c2 + 1) hc3
              rw [hE3] at hz
              have ha3 : c2 + 1 < c4 := hz.1
              have hb3 : c4 ≤ p.lastIdx := hz.2.1
              have hs31 : eb.span.start = (p.tokAt (c2 + 1)).span.start := hz.2.2.1
              have hs32 : eb.span.stop = (p.tokAt (c4 - 1)).span.stop := hz.2.2.2.1
              have henc3 : EnclosesE eb := hz.2.2.2.2
              refine ⟨by omega, hb3, rfl, hs32, ?_⟩
              simp only [EnclosesE, inSpan]
              refine ⟨trivial, ⟨?_, ?_⟩, ⟨?_, ?_⟩, ⟨?_, Nat.le_refl _⟩,
                henc1, henc2, henc3⟩
              · rw [hs11]
                exact hwf.start_mono (Nat.le_succ c) hc1
              · rw [hs12, hs32]
                exact hwf.stop_mono (by omega) (by omega)
              · rw [hs21]
                exact hwf.start_mono (by omega) hb1
              · rw [hs22, hs32]
                exact hwf.stop_mono (by omega) (by omega)
              · rw [hs31]
                exact hwf.start_mono (by omega) hc3
    case whiles =>
      intro c hc
      have hc1 : c + 1 ≤ p.lastIdx := Nat.succ_le_of_lt hc
      simp only [parse_while]
      cases hE1 : parse_expression p Precedence.Lowest (c + 1) n with
      | error e =>
        have hx := ih.expr Precedence.Lowest (c + 1) hc1
        rw [hE1] at hx
        exact hx
      | ok r1 =>
        obtain ⟨cond, c1⟩ := r1
        have hx := ih.expr Precedence.Lowest (c + 1) hc1
        rw [hE1] at hx
        have ha1 : c + 1 < c1 := hx.1
        have hb1 : c1 ≤ p.lastIdx := hx.2.1
        have hs11 : cond.span.start = (p.tokAt (c + 1)).span.start := hx.2.2.1
        have hs12 : cond.span.stop = (p.tokAt (c1 - 1)).span.stop := hx.2.2.2.1
        have henc1 : EnclosesE cond := hx.2.2.2.2
        dsimp only
        cases hE2 : parse_expression p Precedence.Lowest c1 n with
        | error e =>
          have hy := ih.expr Precedence.Lowest c1 hb1
          rw [hE2] at hy
          exact hy
        | ok r2 =>
          obtain ⟨body, c2⟩ := r2
          have hy := ih.expr Precedence.Lowest c1 hb1
          rw [hE2] at hy
          have ha2 : c1 < c2 := hy.1
          have hb2 : c2 ≤ p.lastIdx := hy.2.1
          have hs21 : body.span.start = (p.tokAt c1).span.start := hy.2.2.1
          have hs22 : body.span.stop = (p.tokAt (c2 - 1)).span.stop := hy.2.2.2.1
          have henc2 : EnclosesE body := hy.2.2.2.2
          refine ⟨by omega, hb2, rfl, hs22, ?_⟩
          simp only [EnclosesE, inSpan]
          refine ⟨trivial, ⟨?_, ?_⟩, ⟨?_, Nat.le_refl _⟩, henc1, henc2⟩
          · rw [hs11]
            exact hwf.start_mono (Nat.le_succ c) hc1
          · rw [hs12, hs22]
            exact hwf.stop_mono (by omega) (by omega)
          · rw [hs21]
            exact hwf.start_mono (by omega) hb1
    case fors =>
      intro c hc
      have hc1 : c + 1 ≤ p.lastIdx := Nat.succ_le_of_lt hc
      simp only [parse_for]
      cases hC1 : p.consume (c + 1) .Identifier "Expected identifier after 'for'" with
      | error e => exact hwf.consume_err_spec hc1 hC1
      | ok r1 =>
        obtain ⟨ident, ci⟩ := r1
        obtain ⟨hi1, hi2, hi3, hi4⟩ := hwf.consume_ok_spec hc1 (by simp) hC1
        subst hi1
        subst hi3
        dsimp only
        have hc2 : c + 1 + 1 ≤ p.lastIdx := Nat.succ_le_of_lt hi4
        cases hC2 : p.consume (c + 1 + 1) .In "Expected 'in' after loop variable" with
        | error e => exact hwf.consume_err_spec hc2 hC2
        | ok r2 =>
          obtain ⟨tk2, c2⟩ := r2
          obtain ⟨hj1, hj2, hj3, hj4⟩ := hwf.consume_ok_spec hc2 (by simp) hC2
          subst hj1
          subst hj3
          dsimp only
          have hc3 : c + 1 + 1 + 1 ≤ p.lastIdx := Nat.succ_le_of_lt hj4
          cases hE1 : parse_expression p Precedence.Lowest (c + 1 + 1 + 1) n with
          | error e =>
            have hx := ih.expr Precedence.Lowest (c + 1 + 1 + 1) hc3
            rw [hE1] at hx
            exact hx
          | ok r3 =>
            obtain ⟨iterable, c3⟩ := r3
            have hx := ih.expr Precedence.Lowest (c + 1 + 1 + 1) hc3
            rw [hE1] at hx
            have ha1 : c + 1 + 1 + 1 < c3 := hx.1
            have hb1 : c3 ≤ p.lastIdx := hx.2.1
            have hs11 : iterable.span.start = (p.tokAt (c + 1 + 1 + 1)).span.start := hx.2.2.1
            have hs12 : iterable.span.stop = (p.tokAt (c3 - 1)).span.stop := hx.2.2.2.1
            have henc1 : EnclosesE iterable := hx.2.2.2.2
            dsimp only
            cases hE2 : parse_expression p Precedence.Lowest c3 n with
            | error e =>
              have hy := ih.expr Precedence.Lowest c3 hb1
              rw [hE2] at hy
              exact hy
            | ok r4 =>
              obtain ⟨body, c4⟩ := r4
              have hy := ih.expr Precedence.Lowest c3 hb1
              rw [hE2] at hy
              have ha2 : c3 < c4 := hy.1
              have hb2 : c4 ≤ p.lastIdx := hy.2.1
              have hs21 : body.span.start = (p.tokAt c3).span.start := hy.2.2.1
              have hs22 : body.span.stop = (p.tokAt (c4 - 1)).span.stop := hy.2.2.2.1
              have henc2 : EnclosesE body := hy.2.2.2.2
              refine ⟨by omega, hb2, rfl, hs22, ?_⟩
              simp only [EnclosesE, inSpan, parse_identifier, Expression.span_var]
              refine ⟨trivial, ⟨?_, ?_⟩, ⟨?_, ?_⟩, ⟨?_, Nat.le_refl _⟩,
                ?_, henc1, henc2⟩
              · exact hwf.start_mono (Nat.le_succ c) hc1
              · rw [hs22]
                exact hwf.stop_mono (by omega) (by omega)
              · rw [hs11]
                exact hwf.start_mono (by omega) hc3
              · rw [hs12, hs22]
                exact hwf.stop_mono (by omega) (by omega)
              · rw [hs21]
                exact hwf.start_mono (by omega) hb1
              · simp [EnclosesE]




/-- In a list of valid, pairwise-ordered spans, every element starts no
earlier than the head and stops no later than the last element. -/
theorem chain_first_last {a : SourceSpan} {t : List SourceSpan}
    (hord : List.Chain' (fun x y => x.stop ≤ y.start) (a :: t))
    (hval : ∀ sp ∈ a :: t, sp.start ≤ sp.stop) :
    ∀ sp ∈ a :: t, a.start ≤ sp.start ∧ sp.stop ≤ (t.getLastD a).stop := by
  induction t generalizing a with
  | nil =>
    intro sp hsp
    simp only [List.mem_singleton] at hsp
    subst hsp
    simp
  | cons b t ih =>
    have hab : a.stop ≤ b.start := (List.chain'_cons.mp hord).1
    have hord2 : List.Chain' (fun x y => x.stop ≤ y.start) (b :: t) :=
      (List.chain'_cons.mp hord).2
    have hval2 : ∀ sp ∈ b :: t, sp.start ≤ sp.stop := fun sp hsp =>
      hval sp (List.mem_cons_of_mem a hsp)
    have hI := ih hord2 hval2
    intro sp hsp
    rw [List.getLastD_cons]
    rcases List.mem_cons.mp hsp with rfl | hsp2
    · refine ⟨Nat.le_refl _, ?_⟩
      have hb := hI b (List.mem_cons_self b t)
      have hvb : b.start ≤ b.stop := hval2 b (List.mem_cons_self b t)
      omega
    · obtain ⟨hx1, hx2⟩ := hI sp hsp2
      have hva : a.start ≤ a.stop := hval a (List.mem_cons_self a _)
      exact ⟨by omega, hx2⟩

theorem seqSpans_some_getLastD (sts : List Statement) (v : Expression)
    (d : SourceSpan) : (seqSpans sts (some v)).getLastD d = v.span := by
  unfold seqSpans
  exact List.getLastD_concat _ _ _

theorem map_span_getLastD (ss : List Statement) (s : Statement) :
    (ss.map Statement.span).getLastD s.span = (ss.getLastD s).span := by
  induction ss generalizing s with
  | nil => simp
  | cons b t ih =>
    rw [List.map_cons, List.getLastD_cons, ih b, List.getLastD_cons]

theorem seqSpans_none_getLastD (ss : List Statement) (s : Statement) :
    (seqSpans ss none).getLastD s.span = (ss.getLastD s).span := by
  unfold seqSpans
  simp [map_span_getLastD ss s]

/-- Every `ParseError` that `Parser::parse` can produce classifies
correctly: `incomplete` is set iff the error span is the `End`
sentinel's zero-width span — i.e. iff the parse failed at the sentinel. -/
theorem Parser.parse_error_classified (p : Parser) (N : Nat)
    (hwf : WF p N) {e : ParseError} (h : p.parse = .error e) :
    e.incomplete = true ↔ e.span = ⟨N, N⟩ := by
  unfold Parser.parse at h
  have hm := (master p N hwf (4 * p.tokens.length + 8)).seq .End 0 (Nat.zero_le _)
  cases hS : parse_sequence p .End none 0 (4 * p.tokens.length + 8) with
  | error e2 =>
    rw [hS] at h hm
    cases h
    exact hm
  | ok r =>
    obtain ⟨sts, v, c1⟩ := r
    rw [hS] at h hm
    have hc1 : c1 ≤ p.lastIdx := hm.2.1
    dsimp only at h
    cases hC : p.consume c1 .End "Expected end of input" with
    | error e2 =>
      rw [hC] at h
      cases h
      exact hwf.consume_err_spec hc1 hC
    | ok r2 =>
      rw [hC] at h
      obtain ⟨tk, c2⟩ := r2
      cases sts with
      | nil =>
        cases v with
        | none => cases h
        | some x => cases h
      | cons s ss => cases h

/-- Every tree `Parser::parse` returns encloses its children (and the
program-level `Block` spans exactly its first statement to its last
value/statement). -/
theorem Parser.parse_encloses (p : Parser) (N : Nat) (hwf : WF p N)
    {ex : Expression} (h : p.parse = .ok ex) : EnclosesE ex := by
  unfold Parser.parse at h
  have hm := (master p N hwf (4 * p.tokens.length + 8)).seq .End 0 (Nat.zero_le _)
  cases hS : parse_sequence p .End none 0 (4 * p.tokens.length + 8) with
  | error e2 =>
    rw [hS] at h
    cases h
  | ok r =>
    obtain ⟨sts, v, c1⟩ := r
    rw [hS] at h hm
    have henc : ∀ s ∈ sts, EnclosesS s := hm.2.2.1
    have hvenc : ∀ x, v = some x → EnclosesE x := hm.2.2.2.1
    have hbounds : ∀ sp ∈ seqSpans sts v,
        (p.tokAt 0).span.start ≤ sp.start ∧
        sp.stop ≤ (p.tokAt (c1 - 1)).span.stop ∧ sp.start ≤ sp.stop :=
      hm.2.2.2.2.1
    have hchain : List.Chain' (fun x y => x.stop ≤ y.start) (seqSpans sts v) :=
      hm.2.2.2.2.2
    dsimp only at h
    cases hC : p.consume c1 .End "Expected end of input" with
    | error e2 =>
      rw [hC] at h
      cases h
    | ok r2 =>
      rw [hC] at h
      obtain ⟨tk, c2⟩ := r2
      cases sts with
      | nil =>
        cases v with
        | none =>
          cases h
          trivial
        | some x =>
          cases h
          exact hvenc _ rfl
      | cons s ss =>
        have hvalid : ∀ sp ∈ seqSpans (s :: ss) v, sp.start ≤ sp.stop := by
          intro sp hsp
          exact (hbounds sp hsp).2.2
        rw [seqSpans_cons] at hchain hvalid
        have hfl := chain_first_last hchain hvalid
        cases v with
        | none =>
          cases h
          have hlast : (seqSpans ss none).getLastD s.span =
              (ss.getLastD s).span := seqSpans_none_getLastD ss s
          simp only [EnclosesE]
          refine ⟨?_, EnclosesSL_iff.mpr henc⟩
          intro st hst
          have hx := hfl st.span
            (by rw [← seqSpans_cons]; exact mem_seqSpans_of_mem hst)
          refine ⟨hx.1, ?_⟩
          show st.span.stop ≤ (ss.getLastD s).span.stop
          rw [← hlast]
          exact hx.2
        | some x =>
          cases h
          have hlast : (seqSpans ss (some x)).getLastD s.span = x.span :=
            seqSpans_some_getLastD ss x s.span
          simp only [EnclosesE]
          refine ⟨?_, EnclosesSL_iff.mpr henc, ?_, hvenc x rfl⟩
          · intro st hst
            have hx := hfl st.span
              (by rw [← seqSpans_cons]; exact mem_seqSpans_of_mem hst)
            refine ⟨hx.1, ?_⟩
            show st.span.stop ≤ x.span.stop
            rw [← hlast]
            exact hx.2
          · have hx := hfl x.span
              (by rw [← seqSpans_cons]; exact value_mem_seqSpans (s :: ss) x)
            refine ⟨hx.1, ?_⟩
            show x.span.stop ≤ x.span.stop
            exact Nat.le_refl _




/-- C1: on every well-formed token stream (as `tokenize` produces: a
single trailing `End` sentinel with the zero-width span `⟨N, N⟩`, all
other tokens with nonempty ascending spans), a failing `parse` throws a
`ParseError` whose `incomplete` flag is true exactly when the failure
token is the `End` sentinel — under `WF` the sentinel is the unique token
with span `⟨N, N⟩`, so "the failure occurred at the sentinel" is stated
as "the error span is the sentinel's span".  In particular the tokens of
`"fn(name"` fail with `incomplete = true` and those of `"1 1"` with
`incomplete = false`. -/
theorem claim_C1 :
    (∀ (p : Parser) (N : Nat) (e : ParseError), WF p N →
      p.parse = .error e → (e.incomplete = true ↔ e.span = ⟨N, N⟩)) ∧
    (parseSource "fn(name" = .ok (.error ⟨"Expected ')' after parameter list",
      true, ⟨7, 7⟩, ⟨1, 8⟩, "<test>"⟩)) ∧
    (parseSource "1 1" = .ok (.error ⟨"Expected end of input",
      false, ⟨2, 3⟩, ⟨1, 3⟩, "<test>"⟩)) := by
  refine ⟨?_, rfl, rfl⟩
  intro p N e hwf h
  exact Parser.parse_error_classified p N hwf h

/-- Witness for C1 at the tokens of `"fn(name"` (source length 7). -/
theorem claim_C1_witness :
    WF (Parser.init [⟨.Fn, "fn", ⟨0, 2⟩⟩, ⟨.LeftParen, "(", ⟨2, 3⟩⟩,
      ⟨.Identifier, "name", ⟨3, 7⟩⟩, ⟨.End, "", ⟨7, 7⟩⟩] [0] "<test>") 7 ∧
    ((⟨"Expected ')' after parameter list", true, ⟨7, 7⟩, ⟨1, 8⟩,
      "<test>"⟩ : ParseError).incomplete = true ↔
      (⟨"Expected ')' after parameter list", true, ⟨7, 7⟩, ⟨1, 8⟩,
        "<test>"⟩ : ParseError).span = ⟨7, 7⟩) :=
  ⟨by decide, claim_C1.1
    (Parser.init [⟨.Fn, "fn", ⟨0, 2⟩⟩, ⟨.LeftParen, "(", ⟨2, 3⟩⟩,
      ⟨.Identifier, "name", ⟨3, 7⟩⟩, ⟨.End, "", ⟨7, 7⟩⟩] [0] "<test>") 7
    ⟨"Expected ')' after parameter list", true, ⟨7, 7⟩, ⟨1, 8⟩, "<test>"⟩
    (by decide) rfl⟩

/-- C2: the infix precedence table orders `=` < `||` < `&&` < `|` < `&`
< `+`/`-` < `*`/`/`, the prefix level binds tighter than every infix
rule, and the two scenario sources parse to the claimed shapes. -/
theorem claim_C2 :
    (find_infix_rule .Equals = some ⟨Precedence.Assignment, true, .kassign⟩ ∧
     find_infix_rule .OrOr = some ⟨Precedence.LogicalOr, false, .kbinary⟩ ∧
     find_infix_rule .AndAnd = some ⟨Precedence.LogicalAnd, false, .kbinary⟩ ∧
     find_infix_rule .Pipe = some ⟨Precedence.BitwiseOr, false, .kbinary⟩ ∧
     find_infix_rule .Ampersand = some ⟨Precedence.BitwiseAnd, false, .kbinary⟩ ∧
     find_infix_rule .Plus = some ⟨Precedence.Sum, false, .kbinary⟩ ∧
     find_infix_rule .Minus = some ⟨Precedence.Sum, false, .kbinary⟩ ∧
     find_infix_rule .Star = some ⟨Precedence.Product, false, .kbinary⟩ ∧
     find_infix_rule .Slash = some ⟨Precedence.Product, false, .kbinary⟩ ∧
     Precedence.Assignment < Precedence.LogicalOr ∧
     Precedence.LogicalOr < Precedence.LogicalAnd ∧
     Precedence.LogicalAnd < Precedence.BitwiseOr ∧
     Precedence.BitwiseOr < Precedence.BitwiseAnd ∧
     Precedence.BitwiseAnd < Precedence.Sum ∧
     Precedence.Sum < Precedence.Product ∧
     Precedence.Product < Precedence.PrefixLevel) ∧
    (∀ (ty : TokenType) (r : InfixRule), find_infix_rule ty = some r →
      r.precedence < Precedence.PrefixLevel) ∧
    (parseSource "true && false || true" = .ok (.ok
      (.infixOp .OrOr ⟨14, 16⟩
        (.infixOp .AndAnd ⟨5, 7⟩ (.boolean true ⟨0, 4⟩)
          (.boolean false ⟨8, 13⟩) ⟨0, 13⟩)
        (.boolean true ⟨17, 21⟩) ⟨0, 21⟩))) ∧
    (parseSource "1 + 2 & 3" = .ok (.ok
      (.infixOp .Ampersand ⟨6, 7⟩
        (.infixOp .Plus ⟨2, 3⟩ (.number "1" ⟨0, 1⟩) (.number "2" ⟨4, 5⟩)
          ⟨0, 5⟩)
        (.number "3" ⟨8, 9⟩) ⟨0, 9⟩))) := by
  refine ⟨by decide, ?_, rfl, rfl⟩
  intro ty r h
  cases ty <;> cases h <;> decide

/-- Witness for C2's universal conjunct at `+`. -/
theorem claim_C2_witness :
    (⟨Precedence.Sum, false, .kbinary⟩ : InfixRule).precedence <
      Precedence.PrefixLevel :=
  claim_C2.2.1 .Plus ⟨Precedence.Sum, false, .kbinary⟩ rfl

/-- C3: assignment is right-associative and `+ - * /` are
left-associative — for arbitrary operand names and token spans, three
chained operands nest to the right for `=` and to the left for the four
arithmetic operators — and the recursion floor for a binary operator's
right operand is the operator's own precedence when right-associative
and one more when left-associative (`next_precedence`). -/
theorem claim_C3 :
    (∀ prec : Nat, next_precedence prec true = prec) ∧
    (∀ prec : Nat, next_precedence prec false = prec + 1) ∧
    (∀ (na nb nc lx : String) (s1 s2 s3 s4 s5 s6 : SourceSpan) (nm : String),
      Parser.parse (Parser.init [⟨.Identifier, na, s1⟩, ⟨.Equals, lx, s2⟩,
        ⟨.Identifier, nb, s3⟩, ⟨.Equals, lx, s4⟩, ⟨.Identifier, nc, s5⟩,
        ⟨.End, "", s6⟩] [0] nm) =
      .ok (.assign na s1
        (.assign nb s3 (.var nc s5 s5) ⟨s3.start, s5.stop⟩)
        ⟨s1.start, s5.stop⟩)) ∧
    (∀ (x y z lx : String) (s1 s2 s3 s4 s5 s6 : SourceSpan) (nm : String),
      Parser.parse (Parser.init [⟨.Number, x, s1⟩, ⟨.Plus, lx, s2⟩,
        ⟨.Number, y, s3⟩, ⟨.Plus, lx, s4⟩, ⟨.Number, z, s5⟩,
        ⟨.End, "", s6⟩] [0] nm) =
      .ok (.infixOp .Plus s4
        (.infixOp .Plus s2 (.number x s1) (.number y s3) ⟨s1.start, s3.stop⟩)
        (.number z s5) ⟨s1.start, s5.stop⟩)) ∧
    (∀ (x y z lx : String) (s1 s2 s3 s4 s5 s6 : SourceSpan) (nm : String),
      Parser.parse (Parser.init [⟨.Number, x, s1⟩, ⟨.Minus, lx, s2⟩,
        ⟨.Number, y, s3⟩, ⟨.Minus, lx, s4⟩, ⟨.Number, z, s5⟩,
        ⟨.End, "", s6⟩] [0] nm) =
      .ok (.infixOp .Minus s4
        (.infixOp .Minus s2 (.number x s1) (.number y s3) ⟨s1.start, s3.stop⟩)
        (.number z s5) ⟨s1.start, s5.stop⟩)) ∧
    (∀ (x y z lx : String) (s1 s2 s3 s4 s5 s6 : SourceSpan) (nm : String),
      Parser.parse (Parser.init [⟨.Number, x, s1⟩, ⟨.Star, lx, s2⟩,
        ⟨.Number, y, s3⟩, ⟨.Star, lx, s4⟩, ⟨.Number, z, s5⟩,
        ⟨.End, "", s6⟩] [0] nm) =
      .ok (.infixOp .Star s4
        (.infixOp .Star s2 (.number x s1) (.number y s3) ⟨s1.start, s3.stop⟩)
        (.number z s5) ⟨s1.start, s5.stop⟩)) ∧
    (∀ (x y z lx : String) (s1 s2 s3 s4 s5 s6 : SourceSpan) (nm : String),
      Parser.parse (Parser.init [⟨.Number, x, s1⟩, ⟨.Slash, lx, s2⟩,
        ⟨.Number, y, s3⟩, ⟨.Slash, lx, s4⟩, ⟨.Number, z, s5⟩,
        ⟨.End, "", s6⟩] [0] nm) =
      .ok (.infixOp .Slash s4
        (.infixOp .Slash s2 (.number x s1) (.number y s3) ⟨s1.start, s3.stop⟩)
        (.number z s5) ⟨s1.start, s5.stop⟩)) := by
  refine ⟨fun prec => rfl, fun prec => rfl, ?_, ?_, ?_, ?_, ?_⟩ <;>
    intro a b cc lx s1 s2 s3 s4 s5 s6 nm <;> rfl

/-- C4: every tree a successful `parse` returns has every node's span
enclosing the spans of all its children, with the endpoints equal to the
extreme children's endpoints wherever both ends of the node are child
expressions rather than keyword or delimiter tokens (the `EnclosesE`
predicate states this variant by variant). -/
theorem claim_C4 (p : Parser) (N : Nat) (ex : Expression) (hwf : WF p N)
    (h : p.parse = .ok ex) : EnclosesE ex :=
  Parser.parse_encloses p N hwf h

/-- Witness for C4 at the tokens of `"1 + 2"` (source length 5). -/
theorem claim_C4_witness :
    WF (Parser.init [⟨.Number, "1", ⟨0, 1⟩⟩, ⟨.Plus, "+", ⟨2, 3⟩⟩,
      ⟨.Number, "2", ⟨4, 5⟩⟩, ⟨.End, "", ⟨5, 5⟩⟩] [0] "<test>") 5 ∧
    EnclosesE (.infixOp .Plus ⟨2, 3⟩ (.number "1" ⟨0, 1⟩)
      (.number "2" ⟨4, 5⟩) ⟨0, 5⟩) :=
  ⟨by decide, claim_C4
    (Parser.init [⟨.Number, "1", ⟨0, 1⟩⟩, ⟨.Plus, "+", ⟨2, 3⟩⟩,
      ⟨.Number, "2", ⟨4, 5⟩⟩, ⟨.End, "", ⟨5, 5⟩⟩] [0] "<test>") 5
    (.infixOp .Plus ⟨2, 3⟩ (.number "1" ⟨0, 1⟩) (.number "2" ⟨4, 5⟩) ⟨0, 5⟩)
    (by decide) rfl⟩

/-- C7: sequencing in blocks and at top level — semicolon-terminated
expressions become expression statements with the trailing value absent,
a final semicolon-less expression becomes the value, and a second
semicolon-less expression after the trailing value is a hard error with
`incomplete = false` (the parser stops at the value and the enclosing
context rejects the next token: "Expected '\x7d' after block" inside a
block, "Expected end of input" at top level). -/
theorem claim_C7 :
    (parseSource "{ 1; 2; }" = .ok (.ok (.block
      [.sexpr (.number "1" ⟨2, 3⟩) ⟨2, 3⟩,
       .sexpr (.number "2" ⟨5, 6⟩) ⟨5, 6⟩] none ⟨0, 9⟩))) ∧
    (parseSource "{ 1; 2 }" = .ok (.ok (.block
      [.sexpr (.number "1" ⟨2, 3⟩) ⟨2, 3⟩]
      (some (.number "2" ⟨5, 6⟩)) ⟨0, 8⟩))) ∧
    (parseSource "{ 1 2 }" = .ok (.error ⟨"Expected '\x7d' after block",
      false, ⟨4, 5⟩, ⟨1, 5⟩, "<test>"⟩)) ∧
    (parseSource "1; 2;" = .ok (.ok (.block
      [.sexpr (.number "1" ⟨0, 1⟩) ⟨0, 1⟩,
       .sexpr (.number "2" ⟨3, 4⟩) ⟨3, 4⟩] none ⟨0, 4⟩))) ∧
    (parseSource "1; 2" = .ok (.ok (.block
      [.sexpr (.number "1" ⟨0, 1⟩) ⟨0, 1⟩]
      (some (.number "2" ⟨3, 4⟩)) ⟨0, 4⟩))) ∧
    (parseSource "1 1" = .ok (.error ⟨"Expected end of input",
      false, ⟨2, 3⟩, ⟨1, 3⟩, "<test>"⟩)) :=
  ⟨rfl, rfl, rfl, rfl, rfl, rfl⟩

/-- C8: on the source `"fn(name) -> string name"` the parser in
`parser.cpp` has no type-annotation support — `parse_function_literal`
accepts the parameter list without a `:` and the `->` then reaches
`parse_expression` with no prefix rule — so the parse fails with
"Unexpected token '->' while parsing expression" (incomplete = false),
not with the "Expected ':' after parameter name" that the claim and the
repository's own annotation test expect. -/
theorem claim_C8 :
    parseSource "fn(name) -> string name" = .ok (.error
      ⟨"Unexpected token '->' while parsing expression", false,
        ⟨9, 11⟩, ⟨1, 10⟩, "<test>"⟩) := rfl

/-- C10: token access stays in bounds — `advance` at the `End` sentinel
returns the last token without moving the cursor, `peek(offset)` clamps
its index below the vector length, a single `advance` never pushes an
in-bounds cursor past the sentinel's index, and every successful
`parse_expression`/`parse_sequence` call leaves the cursor at most at the
sentinel's index. -/
theorem claim_C10 :
    (∀ (p : Parser) (c : Nat), p.is_at_end c = true →
      p.advance c = (p.tokensBack, c)) ∧
    (∀ (p : Parser) (c offset : Nat), p.tokens ≠ [] →
      min (c + offset) (p.tokens.length - 1) < p.tokens.length ∧
      p.peekOff c offset = p.tokAt (min (c + offset) (p.tokens.length - 1))) ∧
    (∀ (p : Parser) (N : Nat), WF p N → ∀ c, c ≤ p.lastIdx →
      (p.advance c).2 ≤ p.lastIdx) ∧
    (∀ (p : Parser) (N floor c fuel : Nat) (r : Expression × Nat), WF p N →
      c ≤ p.lastIdx → parse_expression p floor c fuel = .ok r →
      r.2 ≤ p.lastIdx) ∧
    (∀ (p : Parser) (N : Nat) (term : TokenType) (c fuel : Nat)
      (r : List Statement × Option Expression × Nat), WF p N →
      c ≤ p.lastIdx → parse_sequence p term none c fuel = .ok r →
      r.2.2 ≤ p.lastIdx) := by
  refine ⟨?_, ?_, ?_, ?_, ?_⟩
  · intro p c h
    unfold Parser.advance
    rw [if_pos h]
  · intro p c offset h
    have hlen : 1 ≤ p.tokens.length := by
      cases hc : p.tokens with
      | nil => exact absurd hc h
      | cons a t => simp
    exact ⟨by omega, rfl⟩
  · intro p N hwf c hc
    rcases Nat.lt_or_ge c p.lastIdx with hlt | hge
    · rw [hwf.advance_mid hlt]
      exact hlt
    · have he : c = p.lastIdx := Nat.le_antisymm hc hge
      subst he
      rw [hwf.advance_last]
  · intro p N floor c fuel r hwf hc h
    have hx := (master p N hwf fuel).expr floor c hc
    rw [h] at hx
    exact hx.2.1
  · intro p N term c fuel r hwf hc h
    have hx := (master p N hwf fuel).seq term c hc
    rw [h] at hx
    exact hx.2.1

/-- Witness for C10: the clamping and bounds facts at the tokens of
`"1 1"` (source length 3), cursor 1, peek offset 5. -/
theorem claim_C10_witness :
    ((Parser.init [⟨.Number, "1", ⟨0, 1⟩⟩, ⟨.Number, "1", ⟨2, 3⟩⟩,
        ⟨.End, "", ⟨3, 3⟩⟩] [0] "<test>").tokens ≠ [] ∧
      min (1 + 5) ((Parser.init [⟨.Number, "1", ⟨0, 1⟩⟩,
        ⟨.Number, "1", ⟨2, 3⟩⟩, ⟨.End, "", ⟨3, 3⟩⟩] [0]
          "<test>").tokens.length - 1) <
        (Parser.init [⟨.Number, "1", ⟨0, 1⟩⟩, ⟨.Number, "1", ⟨2, 3⟩⟩,
          ⟨.End, "", ⟨3, 3⟩⟩] [0] "<test>").tokens.length) ∧
    WF (Parser.init [⟨.Number, "1", ⟨0, 1⟩⟩, ⟨.Number, "1", ⟨2, 3⟩⟩,
      ⟨.End, "", ⟨3, 3⟩⟩] [0] "<test>") 3 ∧
    (1 : Nat) ≤ (Parser.init [⟨.Number, "1", ⟨0, 1⟩⟩, ⟨.Number, "1", ⟨2, 3⟩⟩,
      ⟨.End, "", ⟨3, 3⟩⟩] [0] "<test>").lastIdx ∧
    ((Parser.init [⟨.Number, "1", ⟨0, 1⟩⟩, ⟨.Number, "1", ⟨2, 3⟩⟩,
      ⟨.End, "", ⟨3, 3⟩⟩] [0] "<test>").advance 1).2 ≤
      (Parser.init [⟨.Number, "1", ⟨0, 1⟩⟩, ⟨.Number, "1", ⟨2, 3⟩⟩,
        ⟨.End, "", ⟨3, 3⟩⟩] [0] "<test>").lastIdx :=
  ⟨⟨by decide, (claim_C10.2.1 _ 1 5 (by decide)).1⟩, by decide, by decide,
    claim_C10.2.2.1 _ 3 (by decide) 1 (by decide)⟩


/-- One-past offsets of every newline of `cs`, with `i` the absolute
index of the head of `cs` — the specification value of the line-offset
table the lexer accumulates. -/
def nlOffsets : List Char → Nat → List Nat
  | [], _ => []
  | c :: cs, i =>
    if c = '\n' then (i + 1) :: nlOffsets cs (i + 1) else nlOffsets cs (i + 1)

/-- The closing delimiter of a raw string of width `k` (a quote followed
by `k` hashes), with the remaining input after it. -/
def closerTail (k : Nat) (rest : List Char) : List Char :=
  quoteChar :: (List.replicate k '#' ++ rest)

/-- `noCloserB k tail content` holds when no position inside `content`
(as continued by `tail`) is a quote followed by `k` hashes — i.e. no
prefix of the raw-string body closes the literal early.  An
under-matched quote (fewer than `k` hashes after it) satisfies this. -/
def noCloserB (k : Nat) (tail : List Char) : List Char → Bool
  | [] => true
  | c :: cs =>
    (!(c == quoteChar && ((cs ++ tail).take k == List.replicate k '#'))) &&
      noCloserB k tail cs

theorem nlOffsets_append (xs : List Char) :
    ∀ (ys : List Char) (i : Nat),
      nlOffsets (xs ++ ys) i = nlOffsets xs i ++ nlOffsets ys (i + xs.length) := by
  induction xs with
  | nil => intro ys i; simp [nlOffsets]
  | cons c cs ih =>
    intro ys i
    by_cases h : c = '\n'
    · simp only [List.cons_append, List.append_eq, nlOffsets, if_pos h,
        List.length_cons]
      rw [ih ys (i + 1),
        show i + 1 + cs.length = i + (cs.length + 1) from by omega]
    · simp only [List.cons_append, List.append_eq, nlOffsets, if_neg h,
        List.length_cons]
      rw [ih ys (i + 1),
        show i + 1 + cs.length = i + (cs.length + 1) from by omega]

theorem nlOffsets_nil_of_no_nl {xs : List Char} :
    (∀ c ∈ xs, c ≠ '\n') → ∀ i, nlOffsets xs i = [] := by
  induction xs with
  | nil => intro _ i; rfl
  | cons c cs ih =>
    intro h i
    have hc : c ≠ '\n' := h c (List.mem_cons_self c cs)
    simp only [nlOffsets, if_neg hc]
    exact ih (fun x hx => h x (List.mem_cons_of_mem c hx)) (i + 1)

/-- The raw-string body loop consumes exactly up to the first true
closer: if `content` contains no closer, scanning
`content ++ closerTail k rest` appends `content` verbatim to the value
(under-matched quotes included), stops right after the closer, and
records exactly the newlines of `content`. -/
theorem rawLoop_closes (k start : Nat) (content : List Char) :
    ∀ (rest value : List Char) (offs : List Nat) (i : Nat),
      noCloserB k (closerTail k rest) content = true →
      rawLoop k start offs value (content ++ closerTail k rest) i =
        .ok (value ++ content, rest, i + content.length + 1 + k,
          offs ++ nlOffsets content i) := by
  induction content with
  | nil =>
    intro rest value offs i _
    show rawLoop k start offs value
      (quoteChar :: (List.replicate k '#' ++ rest)) i = _
    simp only [rawLoop]
    rw [if_pos (by simp)]
    rw [if_pos (by
      rw [List.take_left' (List.length_replicate k '#')]
      exact beq_self_eq_true _)]
    rw [List.drop_left' (List.length_replicate k '#')]
    simp [nlOffsets]
  | cons c cs ih =>
    intro rest value offs i h
    simp only [noCloserB, Bool.and_eq_true, Bool.not_eq_true'] at h
    obtain ⟨h1, h2⟩ := h
    by_cases hq : (c == quoteChar) = true
    · have hcl : ((cs ++ closerTail k rest).take k ==
          List.replicate k '#') = false := by
        cases hx : ((cs ++ closerTail k rest).take k ==
            List.replicate k '#')
        · rfl
        · rw [hq, hx] at h1
          cases h1
      have hc' : c = quoteChar := eq_of_beq hq
      subst hc'
      show rawLoop k start offs value
        (quoteChar :: (cs ++ closerTail k rest)) i = _
      simp only [rawLoop]
      rw [if_pos (by simp), if_neg (by simp [hcl])]
      rw [ih rest (value ++ [quoteChar]) offs (i + 1) h2]
      rw [show value ++ quoteChar :: cs = (value ++ [quoteChar]) ++ cs from
        by simp]
      simp only [List.length_cons]
      rw [show nlOffsets (quoteChar :: cs) i = nlOffsets cs (i + 1) from by
        simp only [nlOffsets,
          if_neg (show ¬(quoteChar = '\n') from by decide)]]
      rw [show i + (cs.length + 1) + 1 + k = i + 1 + cs.length + 1 + k from
        by omega]
    · by_cases hn : (c == '\n') = true
      · have hc' : c = '\n' := eq_of_beq hn
        subst hc'
        show rawLoop k start offs value
          ('\n' :: (cs ++ closerTail k rest)) i = _
        simp only [rawLoop]
        rw [if_neg (by decide), if_pos (by decide)]
        rw [ih rest (value ++ ['\n']) (offs ++ [i + 1]) (i + 1) h2]
        rw [show value ++ '\n' :: cs = (value ++ ['\n']) ++ cs from by simp]
        simp only [List.length_cons]
        rw [show nlOffsets ('\n' :: cs) i = (i + 1) :: nlOffsets cs (i + 1)
          from by simp [nlOffsets]]
        rw [show offs ++ (i + 1) :: nlOffsets cs (i + 1) =
          (offs ++ [i + 1]) ++ nlOffsets cs (i + 1) from by simp]
        rw [show i + (cs.length + 1) + 1 + k = i + 1 + cs.length + 1 + k from
          by omega]
      · have hcn : ¬(c = '\n') := fun hh => by
          rw [hh] at hn
          exact hn (by decide)
        show rawLoop k start offs value
          (c :: (cs ++ closerTail k rest)) i = _
        simp only [rawLoop]
        rw [if_neg hq, if_neg hn]
        rw [ih rest (value ++ [c]) offs (i + 1) h2]
        rw [show value ++ c :: cs = (value ++ [c]) ++ cs from by simp]
        simp only [List.length_cons]
        rw [show nlOffsets (c :: cs) i = nlOffsets cs (i + 1) from by
          simp only [nlOffsets, if_neg hcn]]
        rw [show i + (cs.length + 1) + 1 + k = i + 1 + cs.length + 1 + k from
          by omega]


/-- **C5.** For a raw string literal opened by `r`, `k` hashes and a `"`,
the scanning loop ends only at a `"` immediately followed by exactly `k`
hashes; a `"` followed by fewer than `k` hashes is kept as literal
content.  In particular tokenizing `r#"a "quote" inside"#` produces a
single String token whose value is `a "quote" inside`. -/
theorem claim_C5 :
    (∀ (k start : Nat) (content rest value : List Char) (offs : List Nat)
        (i : Nat),
      noCloserB k (closerTail k rest) content = true →
      rawLoop k start offs value (content ++ closerTail k rest) i =
        .ok (value ++ content, rest, i + content.length + 1 + k,
          offs ++ nlOffsets content i)) ∧
    tokenize "r#\"a \"quote\" inside\"#" =
      .ok ⟨[⟨.String, "a \"quote\" inside", ⟨0, 21⟩⟩,
            ⟨.End, "", ⟨21, 21⟩⟩], [0]⟩ :=
  ⟨fun k start content rest value offs i h =>
    rawLoop_closes k start content rest value offs i h, by rfl⟩

/-- The under-matched closer of C5 in the concrete: the body
`a "quote" inside` of `r#"…"#` contains a `"` followed by zero hashes,
which `noCloserB` accepts as literal content, and the loop consumes the
whole body plus the real closer. -/
theorem claim_C5_witness :
    noCloserB 1 (closerTail 1 []) ("a \"quote\" inside").data = true ∧
    rawLoop 1 0 [0] [] (("a \"quote\" inside").data ++ closerTail 1 []) 3 =
      .ok ([] ++ ("a \"quote\" inside").data, [],
        3 + ("a \"quote\" inside").data.length + 1 + 1,
        [0] ++ nlOffsets ("a \"quote\" inside").data 3) :=
  ⟨by decide, claim_C5.1 1 0 ("a \"quote\" inside").data [] [] [0] 3 (by decide)⟩

theorem nlOffsets_cons_ne {c : Char} (h : c ≠ '\n') (cs : List Char) (i : Nat) :
    nlOffsets (c :: cs) i = nlOffsets cs (i + 1) := by
  simp only [nlOffsets, if_neg h]

theorem nlOffsets_cons_nl (cs : List Char) (i : Nat) :
    nlOffsets ('\n' :: cs) i = (i + 1) :: nlOffsets cs (i + 1) := by
  simp [nlOffsets]

theorem nlOffsets_eq_of_split {xs ys zs : List Char} (h : xs = ys ++ zs)
    (hy : ∀ c ∈ ys, c ≠ '\n') (i : Nat) :
    nlOffsets xs i = nlOffsets zs (i + ys.length) := by
  subst h
  rw [nlOffsets_append, nlOffsets_nil_of_no_nl hy i, List.nil_append]

theorem ident_char_ne_nl :
    ∀ c : Char, (is_alnum c || c == '_') = true → c ≠ '\n' := by
  intro c h he
  subst he
  exact absurd h (by decide)

theorem digit_ne_nl : ∀ c : Char, is_digit c = true → c ≠ '\n' := by
  intro c h he
  subst he
  exact absurd h (by decide)

theorem ne_nl_of_beq {c x : Char} (h : (c == x) = true) (hx : x ≠ '\n') :
    c ≠ '\n' := by
  rw [eq_of_beq h]
  exact hx

/-- `scan_ident` consumes no newline: the offsets specification of the
input is preserved across an identifier scan. -/
theorem scan_ident_offsets {c : Char} {rest : List Char} {i : Nat}
    {tok : Token} {rest2 : List Char} {i2 : Nat}
    (hc : c ≠ '\n')
    (h : scan_ident c rest i = (tok, rest2, i2)) :
    nlOffsets (c :: rest) i = nlOffsets rest2 i2 := by
  simp only [scan_ident, Prod.mk.injEq] at h
  obtain ⟨-, h2, h3⟩ := h
  subst h2 h3
  rw [nlOffsets_cons_ne hc]
  exact nlOffsets_eq_of_split
    (List.takeWhile_append_dropWhile (fun ch => is_alnum ch || ch == '_')
      rest).symm
    (by
      intro x hx
      have hp := List.mem_takeWhile_imp hx
      exact ident_char_ne_nl x hp)
    (i + 1)

/-- Splitting off a leading run of digits preserves the offsets
specification. -/
theorem nlOffsets_digit_run (cs : List Char) (i : Nat) :
    nlOffsets cs i =
      nlOffsets (cs.dropWhile is_digit) (i + (cs.takeWhile is_digit).length) :=
  nlOffsets_eq_of_split (List.takeWhile_append_dropWhile is_digit cs).symm
    (by
      intro x hx
      have hp := List.mem_takeWhile_imp hx
      exact digit_ne_nl x hp) i

theorem scan_number_exponent_offsets {offs : List Nat}
    {consumed rest : List Char} {i : Nat}
    {out : List Char × List Char × Nat}
    (h : scan_number_exponent offs consumed rest i = .ok out) :
    nlOffsets rest i = nlOffsets out.2.1 out.2.2 := by
  match rest with
  | [] =>
    simp only [scan_number_exponent, Except.ok.injEq] at h
    subst h
    rfl
  | e :: r2 =>
    by_cases he : (e == 'e' || e == 'E') = true
    · have hen : e ≠ '\n' := by
        rcases (show e = 'e' ∨ e = 'E' by simpa using he) with rfl | rfl <;> decide
      match r2 with
      | [] =>
        simp only [scan_number_exponent] at h
        rw [if_pos he] at h
        simp at h
      | s :: r2t =>
        by_cases hs : (s == '+' || s == '-') = true
        · have hsn : s ≠ '\n' := by
            rcases (show s = '+' ∨ s = '-' by simpa using hs) with rfl | rfl <;>
              decide
          match r2t with
          | [] =>
            simp only [scan_number_exponent] at h
            rw [if_pos he] at h
            simp [hs] at h
          | d :: dt =>
            by_cases hd : is_digit d = true
            · simp only [scan_number_exponent] at h
              rw [if_pos he] at h
              simp [hs, hd] at h
              subst h
              rw [nlOffsets_cons_ne hen, nlOffsets_cons_ne hsn,
                nlOffsets_digit_run (d :: dt) (i + 1 + 1)]
              simp [hd]
            · simp only [scan_number_exponent] at h
              rw [if_pos he] at h
              simp [hs, hd] at h
        · by_cases hd : is_digit s = true
          · simp only [scan_number_exponent] at h
            rw [if_pos he] at h
            simp [hs, hd] at h
            subst h
            rw [nlOffsets_cons_ne hen, nlOffsets_digit_run (s :: r2t) (i + 1)]
            simp [hd]
          · simp only [scan_number_exponent] at h
            rw [if_pos he] at h
            simp [hs, hd] at h
    · simp only [scan_number_exponent, if_neg he, Except.ok.injEq] at h
      subst h
      rfl

/-- `scan_number` consumes no newline. -/
theorem scan_number_offsets {chars : List Char} {i : Nat} {offs : List Nat}
    {tok : Token} {rest2 : List Char} {i2 : Nat}
    (h : scan_number chars i offs = .ok (tok, rest2, i2)) :
    nlOffsets chars i = nlOffsets rest2 i2 := by
  simp only [scan_number] at h
  split at h
  case h_1 => exact absurd h (by simp)
  case h_2 afterInt consumed rest1 i1 sd heq =>
    have hstep : nlOffsets chars i = nlOffsets rest1 i1 := by
      split at heq
      · rename_i r1 r2
        split at heq
        · rename_i d tail
          split at heq
          · simp only [Except.ok.injEq, Prod.mk.injEq] at heq
            obtain ⟨-, h2, h3, -⟩ := heq
            subst h2 h3
            exact nlOffsets_cons_ne (by decide) _ i
          · exact absurd heq (by simp)
        · exact absurd heq (by simp)
      · rename_i r1 hnotdot
        split at heq
        · rename_i x r2 hdrop
          simp only [Except.ok.injEq, Prod.mk.injEq] at heq
          obtain ⟨-, h2, h3, -⟩ := heq
          subst h2 h3
          rw [nlOffsets_digit_run chars i, hdrop]
          exact nlOffsets_cons_ne (by decide) _ _
        · rename_i x hx
          simp only [Except.ok.injEq, Prod.mk.injEq] at heq
          obtain ⟨-, h2, h3, -⟩ := heq
          subst h2 h3
          exact nlOffsets_digit_run chars i
    have hmid : nlOffsets rest1 i1 =
        nlOffsets (if sd = true then List.dropWhile is_digit rest1 else rest1)
          (i1 + (if sd = true then List.takeWhile is_digit rest1 else []).length) := by
      cases sd with
      | true => simpa using nlOffsets_digit_run rest1 i1
      | false => simp
    cases hE : scan_number_exponent offs
        (consumed ++ if sd = true then List.takeWhile is_digit rest1 else [])
        (if sd = true then List.dropWhile is_digit rest1 else rest1)
        (i1 + (if sd = true then List.takeWhile is_digit rest1 else []).length) with
    | error e => rw [hE] at h; exact absurd h (by simp)
    | ok r3 =>
      rw [hE] at h
      obtain ⟨all, rest3, i3⟩ := r3
      simp only [Except.ok.injEq, Prod.mk.injEq] at h
      obtain ⟨-, h2, h3⟩ := h
      subst h2 h3
      have hexp := scan_number_exponent_offsets hE
      exact hstep.trans (hmid.trans hexp)

theorem ne_nl_of_not_beq {c : Char} (h : ¬(c == '\n') = true) : c ≠ '\n' := by
  intro he
  exact h (by rw [he]; exact beq_self_eq_true _)

/-- The string-literal body loop consumes no newline when it succeeds
(a raw newline inside a plain string literal is an error). -/
theorem stringLoop_offsets (start : Nat) (offs : List Nat) :
    ∀ (value cs : List Char) (i : Nat) (out : List Char × List Char × Nat),
      stringLoop start offs value cs i = .ok out →
      nlOffsets cs i = nlOffsets out.2.1 out.2.2 := by
  intro value cs i
  induction value, cs, i using stringLoop.induct start offs with
  | case1 value i =>
    intro out h
    simp [stringLoop] at h
  | case2 value i esc rest2 hq =>
    intro out h
    rw [stringLoop.eq_def] at h
    dsimp only at h
    rw [if_pos hq] at h
    cases h
    rw [nlOffsets_cons_ne (ne_nl_of_beq hq (by decide))]
  | case3 value i esc hnq hbs =>
    intro out h
    simp [stringLoop, hnq, hbs] at h
  | case4 value i esc hnq hbs esc1 rest2 h1n ih =>
    intro out h
    simp only [stringLoop, hnq, hbs, h1n] at h
    rw [nlOffsets_cons_ne (ne_nl_of_beq hbs (by decide)),
      nlOffsets_cons_ne (ne_nl_of_beq h1n (by decide)),
      show i + 1 + 1 = i + 2 from by omega]
    exact ih out h
  | case5 value i esc hnq hbs esc1 rest2 h1n h1t ih =>
    intro out h
    simp only [stringLoop, hnq, hbs, h1n, h1t] at h
    rw [nlOffsets_cons_ne (ne_nl_of_beq hbs (by decide)),
      nlOffsets_cons_ne (ne_nl_of_beq h1t (by decide)),
      show i + 1 + 1 = i + 2 from by omega]
    exact ih out h
  | case6 value i esc hnq hbs esc1 rest2 h1n h1t h1r ih =>
    intro out h
    simp only [stringLoop, hnq, hbs, h1n, h1t, h1r] at h
    rw [nlOffsets_cons_ne (ne_nl_of_beq hbs (by decide)),
      nlOffsets_cons_ne (ne_nl_of_beq h1r (by decide)),
      show i + 1 + 1 = i + 2 from by omega]
    exact ih out h
  | case7 value i esc hnq hbs esc1 rest2 h1n h1t h1r h1b ih =>
    intro out h
    simp only [stringLoop, hnq, hbs, h1n, h1t, h1r, h1b] at h
    rw [nlOffsets_cons_ne (ne_nl_of_beq hbs (by decide)),
      nlOffsets_cons_ne (ne_nl_of_beq h1b (by decide)),
      show i + 1 + 1 = i + 2 from by omega]
    exact ih out h
  | case8 value i esc hnq hbs esc1 rest2 h1n h1t h1r h1b h1q ih =>
    intro out h
    simp only [stringLoop, hnq, hbs, h1n, h1t, h1r, h1b, h1q] at h
    rw [nlOffsets_cons_ne (ne_nl_of_beq hbs (by decide)),
      nlOffsets_cons_ne (ne_nl_of_beq h1q (by decide)),
      show i + 1 + 1 = i + 2 from by omega]
    exact ih out h
  | case9 value i esc hnq hbs esc1 rest2 h1n h1t h1r h1b h1q =>
    intro out h
    simp [stringLoop, hnq, hbs, h1n, h1t, h1r, h1b, h1q] at h
  | case10 value i esc rest2 hnq hbs hnl =>
    intro out h
    rw [stringLoop.eq_def] at h
    dsimp only at h
    rw [if_neg hnq, if_neg hbs, if_pos hnl] at h
    exact absurd h (by simp)
  | case11 value i esc rest2 hnq hbs hnl ih =>
    intro out h
    rw [stringLoop.eq_def] at h
    dsimp only at h
    rw [if_neg hnq, if_neg hbs, if_neg hnl] at h
    rw [nlOffsets_cons_ne (ne_nl_of_not_beq hnl)]
    exact ih out h

/-- `scan_string_literal` on a non-newline opener consumes no newline. -/
theorem scan_string_literal_offsets {q : Char} {body : List Char}
    {index : Nat} {offs : List Nat} {tok : Token} {rest2 : List Char}
    {i2 : Nat} (hq : q ≠ '\n')
    (h : scan_string_literal (q :: body) index offs = .ok (tok, rest2, i2)) :
    nlOffsets (q :: body) index = nlOffsets rest2 i2 := by
  simp only [scan_string_literal] at h
  cases hS : stringLoop index offs [] body (index + 1) with
  | error e =>
    rw [hS] at h
    exact absurd h (by simp)
  | ok out =>
    rw [hS] at h
    obtain ⟨value, rest3, i3⟩ := out
    simp only [Except.ok.injEq, Prod.mk.injEq] at h
    obtain ⟨-, h2, h3⟩ := h
    subst h2 h3
    rw [nlOffsets_cons_ne hq]
    exact stringLoop_offsets index offs [] body (index + 1) (value, rest3, i3) hS

/-- The raw-string body loop records exactly the newlines it consumes:
the offsets it returns, continued by the specification offsets of the
remaining input, equal the incoming offsets continued by the
specification offsets of its whole input. -/
theorem rawLoop_offsets (k start : Nat) :
    ∀ (offs : List Nat) (value cs : List Char) (i : Nat)
      (out : List Char × List Char × Nat × List Nat),
      rawLoop k start offs value cs i = .ok out →
      out.2.2.2 ++ nlOffsets out.2.1 out.2.2.1 = offs ++ nlOffsets cs i := by
  intro offs value cs i
  induction offs, value, cs, i using rawLoop.induct k start with
  | case1 offs value i =>
    intro out h
    simp [rawLoop] at h
  | case2 offs value i c rest2 hq hcl =>
    intro out h
    rw [rawLoop.eq_def] at h
    dsimp only at h
    rw [if_pos hq, if_pos hcl] at h
    cases h
    rw [nlOffsets_cons_ne (ne_nl_of_beq hq (by decide))]
    have htk : rest2.take k = List.replicate k '#' := by simpa using hcl
    have hsplit : rest2 = List.replicate k '#' ++ rest2.drop k := by
      rw [← htk]
      exact (List.take_append_drop k rest2).symm
    rw [nlOffsets_eq_of_split hsplit
      (by
        intro x hx
        rw [List.eq_of_mem_replicate hx]
        decide) (i + 1)]
    rw [List.length_replicate]
  | case3 offs value i c rest2 hq hcl ih =>
    intro out h
    rw [rawLoop.eq_def] at h
    dsimp only at h
    rw [if_pos hq, if_neg hcl] at h
    rw [nlOffsets_cons_ne (ne_nl_of_beq hq (by decide))]
    exact ih out h
  | case4 offs value i c rest2 hq hnl ih =>
    intro out h
    rw [rawLoop.eq_def] at h
    dsimp only at h
    rw [if_neg hq, if_pos hnl] at h
    rw [eq_of_beq hnl, nlOffsets_cons_nl]
    rw [ih out h]
    simp
  | case5 offs value i c rest2 hq hnl ih =>
    intro out h
    rw [rawLoop.eq_def] at h
    dsimp only at h
    rw [if_neg hq, if_neg hnl] at h
    rw [nlOffsets_cons_ne (ne_nl_of_not_beq hnl)]
    exact ih out h

/-- `skip_block_comment` records exactly the newlines it consumes. -/
theorem skip_block_comment_offsets :
    ∀ (offs : List Nat) (cs : List Char) (i : Nat)
      (out : List Char × Nat × List Nat),
      skip_block_comment offs cs i = .ok out →
      out.2.2 ++ nlOffsets out.1 out.2.1 = offs ++ nlOffsets cs i := by
  intro offs cs i
  induction offs, cs, i using skip_block_comment.induct with
  | case1 offs i =>
    intro out h
    simp [skip_block_comment] at h
  | case2 offs i c rest2 hnl ih =>
    intro out h
    rw [skip_block_comment.eq_def] at h
    dsimp only at h
    rw [if_pos hnl] at h
    rw [eq_of_beq hnl, nlOffsets_cons_nl]
    rw [ih out h]
    simp
  | case3 offs i c rest2 hnl hcl =>
    intro out h
    rw [skip_block_comment.eq_def] at h
    dsimp only at h
    rw [if_neg hnl, if_pos hcl] at h
    cases h
    obtain ⟨hstar, hhead⟩ : c = '*' ∧ rest2.head? = some '/' := by
      simpa using hcl
    subst hstar
    match rest2, hhead with
    | y :: t, hhead =>
      have hy : y = '/' := by simpa using hhead
      subst hy
      rw [nlOffsets_cons_ne (by decide), nlOffsets_cons_ne (by decide),
        show i + 1 + 1 = i + 2 from by omega]
      rfl
  | case4 offs i c rest2 hnl hcl ih =>
    intro out h
    rw [skip_block_comment.eq_def] at h
    dsimp only at h
    rw [if_neg hnl, if_neg hcl] at h
    rw [nlOffsets_cons_ne (ne_nl_of_not_beq hnl)]
    exact ih out h

/-- `scan_raw_string_literal` records exactly the newlines of the
consumed literal. -/
theorem scan_raw_string_literal_offsets {r0 : Char} {rest : List Char}
    {index : Nat} {offs : List Nat} {tok : Token} {rest2 : List Char}
    {i2 : Nat} {offs2 : List Nat} (hr : r0 ≠ '\n')
    (h : scan_raw_string_literal (r0 :: rest) index offs =
      .ok (tok, rest2, i2, offs2)) :
    offs2 ++ nlOffsets rest2 i2 = offs ++ nlOffsets (r0 :: rest) index := by
  simp only [scan_raw_string_literal] at h
  cases hA : rest.dropWhile (fun ch => ch == '#') with
  | nil =>
    rw [hA] at h
    simp at h
  | cons q body =>
    rw [hA] at h
    dsimp only at h
    by_cases hq : (q == quoteChar) = true
    · rw [if_pos hq] at h
      split at h
      · exact absurd h (by simp)
      · rename_i value rest3 i3 offs3 heq
        simp only [Except.ok.injEq, Prod.mk.injEq] at h
        obtain ⟨-, h2, h3, h4⟩ := h
        subst h2 h3 h4
        have hrl := rawLoop_offsets
          (rest.takeWhile (fun ch => ch == '#')).length index offs [] body
          (index + 1 + (rest.takeWhile (fun ch => ch == '#')).length + 1)
          (value, rest3, i3, offs3) heq
        dsimp only at hrl
        rw [hrl, nlOffsets_cons_ne hr]
        have htw : rest = rest.takeWhile (fun ch => ch == '#') ++ (q :: body) := by
          rw [← hA]
          exact (List.takeWhile_append_dropWhile _ _).symm
        rw [nlOffsets_eq_of_split htw
          (by
            intro x hx
            have hp := List.mem_takeWhile_imp hx
            exact ne_nl_of_beq hp (by decide)) (index + 1)]
        rw [nlOffsets_cons_ne (ne_nl_of_beq hq (by decide))]
    · rw [if_neg hq] at h
      simp at h

theorem exceptMap_ok {eps alpha beta : Type} {e : Except eps alpha}
    {f : alpha → beta} {r : beta}
    (h : e.map f = .ok r) : ∃ a, e = .ok a ∧ r = f a := by
  cases e with
  | error x => simp [Except.map] at h
  | ok a =>
    refine ⟨a, rfl, ?_⟩
    simpa [Except.map] using h.symm

theorem lex_map_step {fuel : Nat} {cs2 : List Char} {i2 : Nat}
    {offs2 : List Nat} {tok : Token} {out : List Token × List Nat}
    (h : (lex fuel cs2 i2 offs2).map (fun r => (tok :: r.1, r.2)) = .ok out)
    (IH : ∀ out0, lex fuel cs2 i2 offs2 = .ok out0 →
      out0.2 = offs2 ++ nlOffsets cs2 i2) :
    out.2 = offs2 ++ nlOffsets cs2 i2 := by
  obtain ⟨r0, h0, hr⟩ := exceptMap_ok h
  rw [hr]
  exact IH r0 h0

theorem ne_nl_of_bnot {x : Char} (h : (!(x == '\n')) = true) : x ≠ '\n' := by
  apply ne_nl_of_not_beq
  simp only [Bool.not_eq_true'] at h
  simp [h]

/-- On every successful run the lexer loop appends to `offs` exactly the
one-past offsets of the newlines of its remaining input — newlines inside
block comments and raw strings included. -/
theorem lex_offsets :
    ∀ (fuel : Nat) (cs : List Char) (i : Nat) (offs : List Nat)
      (out : List Token × List Nat),
      lex fuel cs i offs = .ok out → out.2 = offs ++ nlOffsets cs i := by
  intro fuel cs i offs
  induction fuel, cs, i, offs using lex.induct with
  | case1 cs i offs =>
    intro out h
    simp [lex] at h
  | case2 i offs fuel =>
    intro out h
    simp only [lex] at h
    cases h
    simp [nlOffsets]
  | case3 i offs fuel esc rest2 hp ih =>
    intro out h
    simp only [lex, hp] at h
    have hc := eq_of_beq hp
    subst hc
    rw [nlOffsets_cons_nl, ih out h]
    simp
  | case4 i offs fuel esc rest2 n1 hp ih =>
    intro out h
    simp only [lex, n1, hp] at h
    rw [nlOffsets_cons_ne (ne_nl_of_not_beq n1)]
    exact ih out h
  | case5 i offs fuel esc rest2 n1 n2 hp ih =>
    intro out h
    simp only [lex, n1, n2, hp] at h
    rw [nlOffsets_cons_ne (ne_nl_of_not_beq n1)]
    exact lex_map_step h ih
  | case8 i offs fuel esc rest2 n1 n2 n3 n4 hp ih =>
    intro out h
    simp only [lex, n1, n2, n3, n4, hp] at h
    rw [nlOffsets_cons_ne (ne_nl_of_not_beq n1)]
    exact lex_map_step h ih
  | case12 i offs fuel esc rest2 n1 n2 n3 n4 n5 hp hh1 hh2 ih =>
    intro out h
    simp only [lex, n1, n2, n3, n4, n5, hp, hh1, hh2] at h
    rw [nlOffsets_cons_ne (ne_nl_of_not_beq n1)]
    exact lex_map_step h ih
  | case17 i offs fuel esc rest2 n1 n2 n3 n4 n5 n6 n7 n8 hp ih =>
    intro out h
    simp only [lex, n1, n2, n3, n4, n5, n6, n7, n8, hp] at h
    rw [nlOffsets_cons_ne (ne_nl_of_not_beq n1)]
    exact lex_map_step h ih
  | case18 i offs fuel esc rest2 n1 n2 n3 n4 n5 n6 n7 n8 n9 hp ih =>
    intro out h
    simp only [lex, n1, n2, n3, n4, n5, n6, n7, n8, n9, hp] at h
    rw [nlOffsets_cons_ne (ne_nl_of_not_beq n1)]
    exact lex_map_step h ih
  | case19 i offs fuel esc rest2 n1 n2 n3 n4 n5 n6 n7 n8 n9 n10 hp ih =>
    intro out h
    simp only [lex, n1, n2, n3, n4, n5, n6, n7, n8, n9, n10, hp] at h
    rw [nlOffsets_cons_ne (ne_nl_of_not_beq n1)]
    exact lex_map_step h ih
  | case20 i offs fuel esc rest2 n1 n2 n3 n4 n5 n6 n7 n8 n9 n10 n11 hp ih =>
    intro out h
    simp only [lex, n1, n2, n3, n4, n5, n6, n7, n8, n9, n10, n11, hp] at h
    rw [nlOffsets_cons_ne (ne_nl_of_not_beq n1)]
    exact lex_map_step h ih
  | case21 i offs fuel esc rest2 n1 n2 n3 n4 n5 n6 n7 n8 n9 n10 n11 n12 hp ih =>
    intro out h
    simp only [lex, n1, n2, n3, n4, n5, n6, n7, n8, n9, n10, n11, n12, hp] at h
    rw [nlOffsets_cons_ne (ne_nl_of_not_beq n1)]
    exact lex_map_step h ih
  | case22 i offs fuel esc rest2 n1 n2 n3 n4 n5 n6 n7 n8 n9 n10 n11 n12 n13 hp ih =>
    intro out h
    simp only [lex, n1, n2, n3, n4, n5, n6, n7, n8, n9, n10, n11, n12, n13, hp] at h
    rw [nlOffsets_cons_ne (ne_nl_of_not_beq n1)]
    exact lex_map_step h ih
  | case23 i offs fuel esc rest2 n1 n2 n3 n4 n5 n6 n7 n8 n9 n10 n11 n12 n13 n14 hp ih =>
    intro out h
    simp only [lex, n1, n2, n3, n4, n5, n6, n7, n8, n9, n10, n11, n12, n13, n14, hp] at h
    rw [nlOffsets_cons_ne (ne_nl_of_not_beq n1)]
    exact lex_map_step h ih
  | case24 i offs fuel esc rest2 n1 n2 n3 n4 n5 n6 n7 n8 n9 n10 n11 n12 n13 n14 n15 hp ih =>
    intro out h
    simp only [lex, n1, n2, n3, n4, n5, n6, n7, n8, n9, n10, n11, n12, n13, n14, n15, hp] at h
    rw [nlOffsets_cons_ne (ne_nl_of_not_beq n1)]
    exact lex_map_step h ih
  | case6 i offs fuel esc rest2 n1 n2 n3 hp hh ih =>
    intro out h
    simp only [lex, n1, n2, n3, hp, hh] at h
    cases rest2 with
    | nil => simp at hh
    | cons y t =>
      have hy : y = '>' := by simpa using hh
      subst hy
      rw [nlOffsets_cons_ne (ne_nl_of_not_beq n1),
        nlOffsets_cons_ne (by decide),
        show i + 1 + 1 = i + 2 from by omega]
      exact lex_map_step h ih
  | case13 i offs fuel esc rest2 n1 n2 n3 n4 n5 n6 hp hh ih =>
    intro out h
    simp only [lex, n1, n2, n3, n4, n5, n6, hp, hh] at h
    cases rest2 with
    | nil => simp at hh
    | cons y t =>
      have hy : y = '&' := by simpa using hh
      subst hy
      rw [nlOffsets_cons_ne (ne_nl_of_not_beq n1),
        nlOffsets_cons_ne (by decide),
        show i + 1 + 1 = i + 2 from by omega]
      exact lex_map_step h ih
  | case15 i offs fuel esc rest2 n1 n2 n3 n4 n5 n6 n7 hp hh ih =>
    intro out h
    simp only [lex, n1, n2, n3, n4, n5, n6, n7, hp, hh] at h
    cases rest2 with
    | nil => simp at hh
    | cons y t =>
      have hy : y = '|' := by simpa using hh
      subst hy
      rw [nlOffsets_cons_ne (ne_nl_of_not_beq n1),
        nlOffsets_cons_ne (by decide),
        show i + 1 + 1 = i + 2 from by omega]
      exact lex_map_step h ih
  | case7 i offs fuel esc rest2 n1 n2 n3 hp hh ih =>
    intro out h
    simp only [lex, n1, n2, n3, hp, hh] at h
    rw [nlOffsets_cons_ne (ne_nl_of_not_beq n1)]
    exact lex_map_step h ih
  | case14 i offs fuel esc rest2 n1 n2 n3 n4 n5 n6 hp hh ih =>
    intro out h
    simp only [lex, n1, n2, n3, n4, n5, n6, hp, hh] at h
    rw [nlOffsets_cons_ne (ne_nl_of_not_beq n1)]
    exact lex_map_step h ih
  | case16 i offs fuel esc rest2 n1 n2 n3 n4 n5 n6 n7 hp hh ih =>
    intro out h
    simp only [lex, n1, n2, n3, n4, n5, n6, n7, hp, hh] at h
    rw [nlOffsets_cons_ne (ne_nl_of_not_beq n1)]
    exact lex_map_step h ih
  | case9 i offs fuel esc rest2 n1 n2 n3 n4 n5 hp hh body seg ih =>
    intro out h
    simp only [lex, n1, n2, n3, n4, n5, hp, hh] at h
    cases rest2 with
    | nil => simp at hh
    | cons y t =>
      have hy : y = '/' := by simpa using hh
      subst hy
      rw [nlOffsets_cons_ne (ne_nl_of_not_beq n1),
        nlOffsets_cons_ne (by decide),
        show i + 1 + 1 = i + 2 from by omega,
        nlOffsets_eq_of_split
          (List.takeWhile_append_dropWhile (fun ch => !(ch == '\n')) t).symm
          (by
            intro x hx
            have hp2 := List.mem_takeWhile_imp hx
            exact ne_nl_of_bnot hp2) (i + 2)]
      exact ih out h
  | case10 i offs fuel esc rest2 n1 n2 n3 n4 n5 hp hh1 hh2 e heq =>
    intro out h
    simp [lex, n1, n2, n3, n4, n5, hp, hh1, hh2, heq] at h
  | case11 i offs fuel esc rest2 n1 n2 n3 n4 n5 hp hh1 hh2 r3 i3 offs3 heq ih =>
    intro out h
    simp only [lex, n1, n2, n3, n4, n5, hp, hh1, hh2, heq] at h
    have hb := skip_block_comment_offsets offs rest2.tail (i + 2)
      (r3, i3, offs3) heq
    dsimp only at hb
    rw [ih out h, hb]
    cases rest2 with
    | nil => simp at hh2
    | cons y t =>
      have hy : y = '*' := by simpa using hh2
      subst hy
      dsimp only [List.tail_cons]
      rw [nlOffsets_cons_ne (ne_nl_of_not_beq n1),
        nlOffsets_cons_ne (by decide),
        show i + 1 + 1 = i + 2 from by omega]
  | case25 i offs fuel esc rest2 n1 n2 n3 n4 n5 n6 n7 n8 n9 n10 n11 n12 n13 n14 n15 n16 hp e heq =>
    intro out h
    simp [lex, n1, n2, n3, n4, n5, n6, n7, n8, n9, n10, n11, n12, n13, n14, n15, n16, hp, heq] at h
  | case26 i offs fuel esc rest2 n1 n2 n3 n4 n5 n6 n7 n8 n9 n10 n11 n12 n13 n14 n15 n16 hp tok r3 i3 heq ih =>
    intro out h
    simp only [lex, n1, n2, n3, n4, n5, n6, n7, n8, n9, n10, n11, n12, n13, n14, n15, n16, hp, heq] at h
    rw [scan_number_offsets heq]
    exact lex_map_step h ih
  | case27 i offs fuel esc rest2 n1 n2 n3 n4 n5 n6 n7 n8 n9 n10 n11 n12 n13 n14 n15 n16 n17 hp e heq =>
    intro out h
    simp [lex, n1, n2, n3, n4, n5, n6, n7, n8, n9, n10, n11, n12, n13, n14, n15, n16, n17, hp, heq] at h
  | case28 i offs fuel esc rest2 n1 n2 n3 n4 n5 n6 n7 n8 n9 n10 n11 n12 n13 n14 n15 n16 n17 hp tok r3 i3 heq ih =>
    intro out h
    simp only [lex, n1, n2, n3, n4, n5, n6, n7, n8, n9, n10, n11, n12, n13, n14, n15, n16, n17, hp, heq] at h
    rw [scan_string_literal_offsets (ne_nl_of_not_beq n1) heq]
    exact lex_map_step h ih
  | case29 i offs fuel esc rest2 n1 n2 n3 n4 n5 n6 n7 n8 n9 n10 n11 n12 n13 n14 n15 n16 n17 n18 hp e heq =>
    intro out h
    simp [lex, n1, n2, n3, n4, n5, n6, n7, n8, n9, n10, n11, n12, n13, n14, n15, n16, n17, n18, hp, heq] at h
  | case30 i offs fuel esc rest2 n1 n2 n3 n4 n5 n6 n7 n8 n9 n10 n11 n12 n13 n14 n15 n16 n17 n18 hp tok r3 i3 offs3 heq ih =>
    intro out h
    simp only [lex, n1, n2, n3, n4, n5, n6, n7, n8, n9, n10, n11, n12, n13, n14, n15, n16, n17, n18, hp, heq] at h
    exact (lex_map_step h ih).trans
      (scan_raw_string_literal_offsets (ne_nl_of_not_beq n1) heq)
  | case31 i offs fuel esc rest2 n1 n2 n3 n4 n5 n6 n7 n8 n9 n10 n11 n12 n13 n14 n15 n16 n17 n18 n19 hp tok r3 i3 heq ih =>
    intro out h
    simp only [lex, n1, n2, n3, n4, n5, n6, n7, n8, n9, n10, n11, n12, n13, n14, n15, n16, n17, n18, n19, hp, heq] at h
    rw [scan_ident_offsets (ne_nl_of_not_beq n1) heq]
    exact lex_map_step h ih
  | case32 i offs fuel esc rest2 n1 n2 n3 n4 n5 n6 n7 n8 n9 n10 n11 n12 n13 n14 n15 n16 n17 n18 n19 n20 =>
    intro out h
    simp [lex, n1, n2, n3, n4, n5, n6, n7, n8, n9, n10, n11, n12, n13, n14, n15, n16, n17, n18, n19, n20] at h

/-- `Lexer::tokenize` returns offset `0` followed by one-past the
position of every newline byte of the source. -/
theorem tokenize_offsets :
    ∀ (source : String) (r : LexResult), tokenize source = .ok r →
      r.line_offsets = 0 :: nlOffsets source.data 0 := by
  intro source r h
  simp only [tokenize] at h
  cases hL : lex (source.data.length + 1) source.data 0 [0] with
  | error e =>
    rw [hL] at h
    exact absurd h (by simp)
  | ok p =>
    rw [hL] at h
    obtain ⟨toks, offs⟩ := p
    simp only [Except.ok.injEq] at h
    subst h
    have hx := lex_offsets (source.data.length + 1) source.data 0 [0]
      (toks, offs) hL
    simpa using hx

/-- **C6.** Every successful `tokenize` returns as `line_offsets`
exactly the ascending table `0` followed by one-past the position of
every newline byte of the source — newlines inside block comments and
raw strings included; consequently a lexical error raised after an
embedded newline reports the correct later line: lexing `/*\n*/?`
reports the stray `?` at line 2, column 3. -/
theorem claim_C6 :
    (∀ (source : String) (r : LexResult), tokenize source = .ok r →
      r.line_offsets = 0 :: nlOffsets source.data 0) ∧
    tokenize "/*\n*/?" =
      .error "Unexpected character '?' at line 2, column 3" :=
  ⟨tokenize_offsets, by rfl⟩

/-- The offsets table of C6 in the concrete: a raw string with an
embedded newline yields `line_offsets = [0, 5]`, the specification
value for the source `r#"a\nb"#`. -/
theorem claim_C6_witness :
    tokenize "r#\"a\nb\"#" =
      .ok ⟨[⟨.String, "a\nb", ⟨0, 8⟩⟩, ⟨.End, "", ⟨8, 8⟩⟩], [0, 5]⟩ ∧
    (LexResult.mk [⟨.String, "a\nb", ⟨0, 8⟩⟩, ⟨.End, "", ⟨8, 8⟩⟩]
        [0, 5]).line_offsets =
      0 :: nlOffsets ("r#\"a\nb\"#").data 0 :=
  ⟨by rfl, claim_C6.1 "r#\"a\nb\"#" _ (by rfl)⟩

/-- Against C9's claim of a structured `LexError` value, a lexical error
from `tokenize` is a bare flat string: the message text with the
resolved location already formatted into it, carrying no `incomplete`
flag, no span and no separate location value. -/
theorem claim_C9_counterexample :
    tokenize "?" =
      .error "Unexpected character '?' at line 1, column 1" := by
  rfl

/-- **C9 (amended).** Every lexical error class of `tokenize` produces a
flat `runtime_error`-style message built by the `make_error` lambda
(`mkLexError`): message text plus the line/column resolved from the
offsets accumulated so far — not a structured error value. -/
theorem claim_C9 :
    tokenize "?" = .error (mkLexError [0] "Unexpected character '?'" 0) ∧
    tokenize "ab\n?" =
      .error (mkLexError [0, 3] "Unexpected character '?'" 3) ∧
    tokenize "\"abc" =
      .error (mkLexError [0] "Unterminated string literal" 0) ∧
    tokenize "/* x" =
      .error (mkLexError [0] "Unterminated block comment" 4) ∧
    tokenize "r#\"abc" =
      .error (mkLexError [0] "Unterminated raw string literal" 0) ∧
    tokenize "1e+" =
      .error (mkLexError [0] "Invalid exponent in number literal" 3) ∧
    tokenize "\"a\\q\"" =
      .error (mkLexError [0] "Unknown escape sequence '\\q'" 2) :=
  ⟨rfl, rfl, rfl, rfl, rfl, rfl, rfl⟩

end Sonar
